import Mathlib

/-!
Verification of the futures tranche engine of this repository
(`live/futures_adapter.py` together with `live/ib_order.py`).

This file gives a shallow embedding of the order-reconciliation engine
(`_reconcile_tranche`), the tranche managers (`_manage_scalp`,
`_manage_core`), the tranche dispatcher (`_evaluate_tranches`), the ATR
estimator (`_atr14`), tick rounding (`round(p / TICK_SIZE) * TICK_SIZE`)
and the position-poll update (`_update_pos_from_rows`), and proves
theorems about the properties these routines do and do not satisfy.

Modelling conventions:
* Prices are exact rationals; Python's `round` is embedded as round half
  to even (`pyRound`).
* The Python dict `price -> order` built by `_fetch_open_orders` via
  `{float(o["price"]): o for o in raw}` is embedded as an association
  list built with last-write-wins insertion (`openByPx`), which keeps
  first-insertion key order and the last value per key, as a dict does.
* The string dict keys "tp1" / "tp2" / "stop" / "tgt<i>" and the tranche
  names "scalp_add" / "core_runner" are embedded as inductive types with
  the evident encoding (`LegName.tgt i` stands for the key "tgt<i>").
* Every broker call site receives its outcome from a `BrokerOracle`, so
  the `try`/`except` structure of the Python code becomes explicit: a
  handled failure is consumed where the code handles it, while the two
  call sites of `_manage_core` that are not wrapped in `try` surface as
  an error component of the evaluation result.
* `self.legs_required` is written by `_reconcile_tranche` but never read
  anywhere in the repository, so it is not part of the embedded state.
-/

/-- MBT tick size: `TICK_SIZE = 0.5` in `live/ib_order.py`. -/
def TICK_SIZE : ℚ := 1 / 2

/-- Python's builtin `round` on exact values: nearest integer, ties to
even (banker's rounding). -/
def pyRound (x : ℚ) : ℤ :=
  let f : ℤ := ⌊x⌋
  let r : ℚ := x - f
  if r < 1 / 2 then f
  else if 1 / 2 < r then f + 1
  else if f % 2 = 0 then f else f + 1

/-- `round(price / TICK_SIZE) * TICK_SIZE`, the rounding expression used
at every price site of `futures_adapter.py` and `ib_order.py`. -/
def roundToTick (p : ℚ) : ℚ := (pyRound (p / TICK_SIZE) : ℚ) * TICK_SIZE

/-- A one-minute OHLC bar as stored in `self._bars_1m` (the dict
`{"high": .., "low": .., "close": ..}`). -/
structure Bar where
  high : ℚ
  low : ℚ
  close : ℚ
deriving DecidableEq

/-- One true-range term of `_atr14`:
`max(h - l, abs(h - prev_close), abs(l - prev_close))`. -/
def trueRange (pc : ℚ) (b : Bar) : ℚ :=
  max (b.high - b.low) (max |b.high - pc| |b.low - pc|)

/-- The true-range series of `_atr14`'s loop: `prev_close` starts at `pc`
and advances to each bar's close. -/
def trList (pc : ℚ) : List Bar → List ℚ
  | [] => []
  | b :: bs => trueRange pc b :: trList b.close bs

/-- `statistics.mean` on a list of exact values. -/
def pyMean (xs : List ℚ) : ℚ := xs.sum / xs.length

/-- `FuturesAdapter._atr14`: `0.0` for fewer than 15 bars, otherwise the
mean of the true ranges of the last 14 bars, with `prev_close` seeded
from `bars[-15]["close"]`. -/
def atr14 (bars : List Bar) : ℚ :=
  if bars.length < 15 then 0
  else
    match bars.drop (bars.length - 15) with
    | [] => 0
    | seed :: rest => pyMean (trList seed.close rest)

/-- Restatement of the spec's ATR algorithm in its own words: pair the
window's closes (previous-close series) with the window shifted by one
bar, take each pair's true range, and average. Used to check `atr14`
against the claim's wording. -/
def atrSpec (bars : List Bar) : ℚ :=
  let w := bars.drop (bars.length - 15)
  pyMean (List.zipWith
    (fun pc b => max (b.high - b.low) (max |b.high - pc| |b.low - pc|))
    (w.map Bar.close) (w.drop 1))

/-- An open order as reported by `IBClient.list_orders` and consumed by
the adapter (`orderId`, `price`, `reduceOnly`). -/
structure Order where
  orderId : Nat
  price : ℚ
  reduceOnly : Bool
deriving DecidableEq

/-- The price-keyed order dict of `_fetch_open_orders`. -/
abbrev PxMap := List (ℚ × Order)

/-- Dict assignment `d[o.price] = o`: replace the value at an existing
key, else append a new entry. -/
def insertByPrice (m : PxMap) (o : Order) : PxMap :=
  if ∃ po ∈ m, po.1 = o.price then
    m.map (fun po => if po.1 = o.price then (po.1, o) else po)
  else m ++ [(o.price, o)]

/-- The dict comprehension `{float(o["price"]): o for o in raw}`. -/
def openByPx (raw : List Order) : PxMap := raw.foldl insertByPrice []

/-- `px in open_by_px` (dict key membership). -/
def HasKey (m : PxMap) (p : ℚ) : Prop := ∃ po ∈ m, po.1 = p

instance (m : PxMap) (p : ℚ) : Decidable (HasKey m p) :=
  decidable_of_iff (∃ po ∈ m, po.1 = p) Iff.rfl

/-- Leg-name dict keys: "tp1", "tp2", "stop", "tgt<i>". -/
inductive LegName where
  | tp1
  | tp2
  | stop
  | tgt (i : Nat)
deriving DecidableEq

/-- Tranche names: "scalp_add" and "core_runner". -/
inductive TrName where
  | scalp_add
  | core_runner
deriving DecidableEq

/-- One broker call issued during an evaluation step, mirroring the
`IBClient` API. A `submit` records the arguments of `submit_order`
(side, qty, order type, price, reduce_only) and, in `result`, the
returned order id (`none` when the call raised). -/
inductive OrderAction where
  | cancel (orderId : Nat)
  | submit (side : String) (qty : Int) (ordType : String) (price : ℚ)
      (reduceOnly : Bool) (result : Option Nat)
  | modify (orderId : Nat) (price : ℚ)
deriving DecidableEq

/-- The cached trailing-stop state `self._core_stop_id` /
`self._core_stop_px`. -/
structure CoreCache where
  stopId : Option Nat
  stopPx : Option ℚ
deriving DecidableEq

/-- Outcome oracle for the broker call sites of one evaluation step:
each call receives its result from here, so handled and unhandled
exception paths are explicit. `submitRes` is keyed by the submitted
price, `cancelRes` by the cancelled order id; `fetchCore` answers the
direct `_fetch_open_orders` call of `_manage_core`, `fetchRecon` the one
inside `_reconcile_tranche` (keyed by tranche). -/
structure BrokerOracle where
  submitRes : ℚ → Except String Nat
  cancelRes : Nat → Except String Unit
  modifyRes : Except String Unit
  fetchCore : Except String (List Order)
  fetchRecon : TrName → Except String (List Order)

/-- `_fetch_open_orders` catches every error internally and returns the
empty dict, so a failed fetch is already handled here. -/
def fetchHandled (r : Except String (List Order)) : List Order :=
  match r with
  | Except.ok l => l
  | Except.error _ => []

/-- `want_prices.values()` restricted to non-null prices (a `None` value
can never equal a float key, and `None` legs are skipped on submit). -/
def wantVals (want : List (LegName × Option ℚ)) : List ℚ :=
  want.filterMap Prod.snd

/-- Order-type selection of the submit phase:
`"LIMIT" if (side == "BUY" and px < price) or (side == "SELL" and px > price) else "STOP"`. -/
def legTypeFor (side : String) (px mkt : ℚ) : String :=
  if (side = "BUY" ∧ px < mkt) ∨ (side = "SELL" ∧ mkt < px) then "LIMIT"
  else "STOP"

/-- Cancel phase of `_reconcile_tranche`: for every dict entry that is
reduce-only and whose price is not among the desired values, issue a
cancel (failures are caught in the source, so the call is recorded
either way). -/
def cancelPhase (want : List (LegName × Option ℚ)) : PxMap → List OrderAction
  | [] => []
  | po :: rest =>
    if po.2.reduceOnly = true ∧ po.1 ∉ wantVals want then
      OrderAction.cancel po.2.orderId :: cancelPhase want rest
    else cancelPhase want rest

/-- Submit phase of `_reconcile_tranche`: for every leg with a non-null
price not already present as a dict key, submit a reduce-only order; on
success cache the id, and refresh `_core_stop_id` / `_core_stop_px`
when the leg is the core tranche's "stop"; a raised submit is caught. -/
def submitPhase (oracle : BrokerOracle) (trName : TrName) (m : PxMap)
    (mkt : ℚ) (qty : Int) (side : String) :
    List (LegName × Option ℚ) → CoreCache → List OrderAction × CoreCache
  | [], c => ([], c)
  | (_, none) :: rest, c => submitPhase oracle trName m mkt qty side rest c
  | (leg, some px) :: rest, c =>
    if HasKey m px then submitPhase oracle trName m mkt qty side rest c
    else
      match oracle.submitRes px with
      | Except.ok oid =>
        let c' := if trName = TrName.core_runner ∧ leg = LegName.stop then
            CoreCache.mk (some oid) (some px)
          else c
        let r := submitPhase oracle trName m mkt qty side rest c'
        (OrderAction.submit side qty (legTypeFor side px mkt) px true
            (some oid) :: r.1, r.2)
      | Except.error _ =>
        let r := submitPhase oracle trName m mkt qty side rest c
        (OrderAction.submit side qty (legTypeFor side px mkt) px true
            none :: r.1, r.2)

/-- `_reconcile_tranche`: fetch the open-order dict, run the cancel
phase, then the submit phase. Returns the issued calls and the updated
stop cache. -/
def reconcileTranche (oracle : BrokerOracle) (trName : TrName)
    (want : List (LegName × Option ℚ)) (qty : Int) (side : String)
    (mkt : ℚ) (c : CoreCache) : List OrderAction × CoreCache :=
  let m := openByPx (fetchHandled (oracle.fetchRecon trName))
  (cancelPhase want m ++ (submitPhase oracle trName m mkt qty side want c).1,
    (submitPhase oracle trName m mkt qty side want c).2)

/-- Scalp tranche configuration (`qty` and the `oco` block). -/
structure ScalpTr where
  qty : Int
  tp1 : ℚ
  tp2 : ℚ
  stop : ℚ
deriving DecidableEq

/-- Core tranche configuration (`qty`, `trailing_stop.initial`,
`hard_targets`). -/
structure CoreTr where
  qty : Int
  initialStop : ℚ
  hardTargets : List ℚ
deriving DecidableEq

/-- The `want_prices` dict built by `_manage_scalp`. -/
def scalpWant (tr : ScalpTr) : List (LegName × Option ℚ) :=
  [(LegName.tp1, some (roundToTick tr.tp1)),
   (LegName.tp2, some (roundToTick tr.tp2)),
   (LegName.stop, some (roundToTick tr.stop))]

/-- The `want_dict` built by `_manage_core`: the cached stop price under
"stop" (possibly null) plus one tick-rounded entry per hard target. -/
def coreWant (stopPx : Option ℚ) (hardTargets : List ℚ) :
    List (LegName × Option ℚ) :=
  (LegName.stop, stopPx) ::
    hardTargets.enum.map (fun p => (LegName.tgt (p.1 + 1), some (roundToTick p.2)))

/-- `_manage_scalp`: below the entry quantity nothing happens, otherwise
reconcile the three fixed OCO legs. -/
def manageScalp (oracle : BrokerOracle) (tr : ScalpTr) (pos : Int)
    (mkt : ℚ) (c : CoreCache) : List OrderAction × CoreCache :=
  if |pos| < tr.qty then ([], c)
  else reconcileTranche oracle TrName.scalp_add (scalpWant tr) tr.qty "BUY" mkt c

/-- Initial stop placement of `_manage_core`: when no stop is tracked
and no reduce-only open order sits at the rounded initial stop price,
submit one. This `submit_order` call is NOT wrapped in `try`, so a raise
here aborts the evaluation (third component `some e`). -/
def initialPhase (oracle : BrokerOracle) (tr : CoreTr) (m : PxMap)
    (c : CoreCache) : List OrderAction × CoreCache × Option String :=
  let stopPrice := roundToTick tr.initialStop
  if c.stopId = none then
    if ∃ po ∈ m, po.2.reduceOnly = true ∧ po.2.price = stopPrice then
      ([], c, none)
    else
      match oracle.submitRes stopPrice with
      | Except.ok oid =>
        ([OrderAction.submit "BUY" tr.qty "STOP" stopPrice true (some oid)],
          CoreCache.mk (some oid) (some stopPrice), none)
      | Except.error e =>
        ([OrderAction.submit "BUY" tr.qty "STOP" stopPrice true none], c, some e)
  else ([], c, none)

/-- The candidate trailing stop of `_manage_core`:
`round((latest bar's high + ATR) / TICK_SIZE) * TICK_SIZE`. -/
def trailCandidate (bars : List Bar) : ℚ :=
  roundToTick ((bars.getLast?.getD (Bar.mk 0 0 0)).high + atr14 bars)

/-- ATR-trail step of `_manage_core`: with 15 bars and a tracked stop,
the candidate is `round((latest high + ATR) / TICK) * TICK`, and the
stop is modified in place only when `new_stop < stop_px - TICK_SIZE`.
`modify_order` is NOT wrapped in `try`; on a raise the cached price is
left unchanged and the evaluation aborts. -/
def trailPhase (oracle : BrokerOracle) (bars : List Bar) (c : CoreCache) :
    List OrderAction × CoreCache × Option String :=
  match c.stopId, c.stopPx with
  | some oid, some px =>
    if 15 ≤ bars.length then
      let newStop := trailCandidate bars
      if newStop < px - TICK_SIZE then
        match oracle.modifyRes with
        | Except.ok _ => ([OrderAction.modify oid newStop],
            CoreCache.mk (some oid) (some newStop), none)
        | Except.error e => ([OrderAction.modify oid newStop], c, some e)
      else ([], c, none)
    else ([], c, none)
  | _, _ => ([], c, none)

/-- `_manage_core`: entry guard, direct open-order fetch, initial stop
placement, ATR trail, then reconciliation of `{"stop": px, "tgt<i>": t}`.
The third component is the uncaught exception, if one escaped. -/
def manageCore (oracle : BrokerOracle) (tr : CoreTr) (pos : Int) (mkt : ℚ)
    (bars : List Bar) (c : CoreCache) :
    List OrderAction × CoreCache × Option String :=
  if |pos| < tr.qty then ([], c, none)
  else
    let m := openByPx (fetchHandled oracle.fetchCore)
    match initialPhase oracle tr m c with
    | (a1, c1, some e) => (a1, c1, some e)
    | (a1, c1, none) =>
      match trailPhase oracle bars c1 with
      | (a2, c2, some e) => (a1 ++ a2, c2, some e)
      | (a2, c2, none) =>
        let r := reconcileTranche oracle TrName.core_runner
          (coreWant c2.stopPx tr.hardTargets) tr.qty "BUY" mkt c2
        (a1 ++ a2 ++ r.1, r.2, none)

/-- Inputs of one `_evaluate_tranches` call: configuration, shared
engine state read by the step, and the broker oracle for this tick. -/
structure EngineInput where
  oracle : BrokerOracle
  scalpActive : Bool
  coreActive : Bool
  scalp : ScalpTr
  core : CoreTr
  positionLimit : Int
  pos : Int
  price : Option ℚ
  bars : List Bar

/-- `_evaluate_tranches`: hard position-limit guard, missing-price
guard, then the active tranches in declaration order (scalp_add,
core_runner), threading the stop cache. -/
def evaluateTranches (inp : EngineInput) (c : CoreCache) :
    List OrderAction × CoreCache × Option String :=
  if inp.positionLimit < |inp.pos| then ([], c, none)
  else
    match inp.price with
    | none => ([], c, none)
    | some mkt =>
      let s := if inp.scalpActive then
          manageScalp inp.oracle inp.scalp inp.pos mkt c
        else ([], c)
      if inp.coreActive then
        let r := manageCore inp.oracle inp.core inp.pos mkt inp.bars s.2
        (s.1 ++ r.1, r.2.1, r.2.2)
      else (s.1, s.2, none)

/-- Order ids for which a cancel call was issued. -/
def cancelledIds (acts : List OrderAction) : List Nat :=
  acts.filterMap (fun a => match a with
    | OrderAction.cancel oid => some oid
    | _ => none)

/-- The open orders created by the successful submits of a pass. -/
def submittedOrders (acts : List OrderAction) : List Order :=
  acts.filterMap (fun a => match a with
    | OrderAction.submit _ _ _ px ro (some oid) => some (Order.mk oid px ro)
    | _ => none)

/-- Broker state after applying a pass's cancels and successful submits
to the snapshot the pass ran against. -/
def postOrders (raw : List Order) (acts : List OrderAction) : List Order :=
  raw.filter (fun o => decide (o.orderId ∉ cancelledIds acts))
    ++ submittedOrders acts

/-- Python `s.startswith(p)`: `p` is a character prefix of `s`. -/
def pyStartswith (s p : String) : Bool := p.data.isPrefixOf s.data

/-- One row of the position endpoint's response. -/
structure PositionRow where
  symbol : String
  qty : Int
deriving DecidableEq

/-- The shared engine state that `_update_pos_from_rows` can see. -/
structure EngineStateRec where
  pos : Int
  price : Option ℚ
  bars : List Bar
  cache : CoreCache
deriving DecidableEq

/-- `_update_pos_from_rows`: scan the rows, and at the first row whose
symbol starts with the configured contract prefix set `self.pos` to its
qty and stop. -/
def updatePosFromRows (contract : String) (st : EngineStateRec)
    (rows : List PositionRow) : EngineStateRec :=
  match rows.find? (fun r => pyStartswith r.symbol contract) with
  | some r => { st with pos := r.qty }
  | none => st

/-- The stop cache at process start (`__init__`). -/
def initCache : CoreCache := CoreCache.mk none none

/-- Cache evolution across a sequence of tick evaluations. -/
def runEvals (inputs : List EngineInput) (c : CoreCache) : CoreCache :=
  inputs.foldl (fun c inp => (evaluateTranches inp c).2.1) c

/-- The tracked stop price after the first `n` tick evaluations of a
process run. -/
def stopPxAt (inputs : List EngineInput) (n : ℕ) : Option ℚ :=
  (runEvals (inputs.take n) initCache).stopPx

/-- Reachability invariant of the stop cache: an id is tracked whenever
a price is. -/
def CacheInv (c : CoreCache) : Prop := c.stopId = none → c.stopPx = none

/-- The spec's synthetic ATR input: fourteen bars with high 105000 /
low 104500 / close 104700, then one bar 104600 / 104100 / 104300. -/
def exampleBars : List Bar :=
  List.replicate 14 (Bar.mk 105000 104500 104700) ++ [Bar.mk 104600 104100 104300]

/-- An oracle on which every broker call succeeds. -/
def okOracle : BrokerOracle :=
  BrokerOracle.mk (fun _ => Except.ok 1) (fun _ => Except.ok ())
    (Except.ok ()) (Except.ok []) (fun _ => Except.ok [])

/-- Concrete scalp tranche used in witness scenarios. -/
def scalpEx : ScalpTr := ScalpTr.mk 10 103300 102950 104400

/-- Concrete core tranche used in witness scenarios. -/
def coreEx : CoreTr := CoreTr.mk 2 101000 [111000, 118000]

/-- Concrete engine input with `position_limit = 25` and `position = 30`. -/
def inpLimitEx : EngineInput :=
  EngineInput.mk okOracle true true scalpEx coreEx 25 30 (some 104000) []

/-- Concrete engine state for the position-poll scenarios. -/
def stEx : EngineStateRec := EngineStateRec.mk 0 none [] initCache

/-- Concrete position rows: one non-matching symbol, then a match. -/
def rowsEx : List PositionRow :=
  [PositionRow.mk "ESZ5" 5, PositionRow.mk "MBTZ5" (-3)]

/-- A reduce-only order resting at 90000, the core tranche's tracked
stop price in the two-tranche scenario. -/
def coreStopOrderCx : Order := Order.mk 7 90000 true

/-- Oracle for the two-tranche scenario: every reconcile fetch sees
exactly the core tranche's resting stop order. -/
def oracleCx : BrokerOracle :=
  BrokerOracle.mk (fun _ => Except.ok 1) (fun _ => Except.ok ())
    (Except.ok ()) (Except.ok []) (fun _ => Except.ok [coreStopOrderCx])

/-- The calls issued by a scalp-tranche reconciliation pass in the
two-tranche scenario. -/
def scalpPassCx : List OrderAction :=
  (reconcileTranche oracleCx TrName.scalp_add (scalpWant scalpEx) 10 "BUY"
    104000 initCache).1

/-- Broker snapshot for the single-tranche reconcile witness: one order
already at a desired scalp price, one rogue reduce-only order. -/
def rawW1 : List Order := [Order.mk 1 103300 true, Order.mk 2 99000 true]

/-- Oracle for the single-tranche reconcile witness. -/
def oracleW1 : BrokerOracle :=
  BrokerOracle.mk (fun _ => Except.ok 5) (fun _ => Except.ok ())
    (Except.ok ()) (Except.ok []) (fun _ => Except.ok rawW1)

/-- First-pass call list for the idempotence witness. -/
def pass1W4 : List OrderAction :=
  (reconcileTranche oracleW1 TrName.scalp_add (scalpWant scalpEx) 10 "BUY"
    104000 initCache).1

/-- Oracle for the second pass of the idempotence witness: its fetch
returns exactly the broker state left by the first pass. -/
def oracleW4 : BrokerOracle :=
  BrokerOracle.mk (fun _ => Except.ok 6) (fun _ => Except.ok ())
    (Except.ok ()) (Except.ok []) (fun _ => Except.ok (postOrders rawW1 pass1W4))

/-- Engine input for the stop-monotonicity witness: only the core
tranche active, position at the tranche quantity, empty broker state. -/
def inpW2 : EngineInput :=
  EngineInput.mk okOracle false true scalpEx coreEx 25 2 (some 104000) []

/-- Fifteen flat one-minute bars at 100000 (so the ATR is 0 and the
trail candidate is 100000). -/
def barsFlat : List Bar := List.replicate 15 (Bar.mk 100000 100000 100000)

/-- Core tranche for the trail boundary scenario. -/
def coreC3 : CoreTr := CoreTr.mk 2 (100000.5 : ℚ) []

/-- Broker snapshot holding just the tracked stop order at 100000.5. -/
def rawC3 : List Order := [Order.mk 5 (100000.5 : ℚ) true]

/-- Oracle for the trail boundary scenario. -/
def oracleC3 : BrokerOracle :=
  BrokerOracle.mk (fun _ => Except.ok 1) (fun _ => Except.ok ())
    (Except.ok ()) (Except.ok rawC3) (fun _ => Except.ok rawC3)

/-- Oracle whose modify call raises. -/
def oracleC8 : BrokerOracle :=
  BrokerOracle.mk (fun _ => Except.ok 9) (fun _ => Except.ok ())
    (Except.error "modify failed") (Except.ok []) (fun _ => Except.ok [])

/-- Engine input driving a trail modification whose modify call raises. -/
def inpC8 : EngineInput :=
  EngineInput.mk oracleC8 false true scalpEx coreEx 25 2 (some 100200) barsFlat

/-- Broker snapshot for the no-adoption scenario: one reduce-only order
already resting at the rounded initial stop price of `coreEx`. -/
def rawC9 : List Order := [Order.mk 3 101000 true]

/-- Oracle for the no-adoption scenario. -/
def oracleC9 : BrokerOracle :=
  BrokerOracle.mk (fun _ => Except.ok 4) (fun _ => Except.ok ())
    (Except.ok ()) (Except.ok rawC9) (fun _ => Except.ok rawC9)

/-- Broker snapshot for the trail witness: the tracked stop order,
already at the post-trail price 100000. -/
def rawW3 : List Order := [Order.mk 5 100000 true]

/-- Oracle for the trail witness. -/
def oracleW3 : BrokerOracle :=
  BrokerOracle.mk (fun _ => Except.ok 1) (fun _ => Except.ok ())
    (Except.ok ()) (Except.ok []) (fun _ => Except.ok rawW3)

/-! ### Basic lemmas -/

theorem pyRound_intCast (n : ℤ) : pyRound (n : ℚ) = n := by
  unfold pyRound
  rw [Int.floor_intCast]
  norm_num

theorem trList_nonneg (bs : List Bar) : ∀ (pc : ℚ), ∀ x ∈ trList pc bs, 0 ≤ x := by
  induction bs with
  | nil => intro pc x hx; simp [trList] at hx
  | cons b bs ih =>
    intro pc x hx
    simp only [trList, List.mem_cons] at hx
    rcases hx with h | h
    · subst h
      unfold trueRange
      calc (0 : ℚ) ≤ |b.high - pc| := abs_nonneg _
        _ ≤ max |b.high - pc| |b.low - pc| := le_max_left _ _
        _ ≤ max (b.high - b.low) (max |b.high - pc| |b.low - pc|) := le_max_right _ _
    · exact ih b.close x h

theorem atr14_nonneg (bars : List Bar) : 0 ≤ atr14 bars := by
  unfold atr14
  split
  · exact le_refl 0
  · split
    · exact le_refl 0
    · unfold pyMean
      exact div_nonneg (List.sum_nonneg (trList_nonneg _ _)) (by positivity)

theorem trList_eq_zipWith (bs : List Bar) : ∀ pc : ℚ,
    trList pc bs = List.zipWith trueRange (pc :: bs.map Bar.close) bs := by
  induction bs with
  | nil => intro pc; rfl
  | cons b bs ih => intro pc; simp [trList, List.zipWith, ih b.close]

theorem atr14_eq_atrSpec (bars : List Bar) (h : 15 ≤ bars.length) :
    atr14 bars = atrSpec bars := by
  unfold atr14 atrSpec
  rw [if_neg (by omega)]
  have hlen : (bars.drop (bars.length - 15)).length = 15 := by
    rw [List.length_drop]; omega
  have hne : bars.drop (bars.length - 15) ≠ [] := by
    intro hnil
    rw [hnil] at hlen
    simp at hlen
  obtain ⟨seed, rest, hw⟩ := List.exists_cons_of_ne_nil hne
  rw [hw]
  show pyMean (trList seed.close rest) = _
  simp only [List.map_cons, List.drop_succ_cons, List.drop_zero]
  congr 1
  rw [trList_eq_zipWith]
  rfl

/-! ### C7 -/

/-- C7: tick rounding `p ↦ round(p / TICK_SIZE) * TICK_SIZE` with
`TICK_SIZE = 0.5` is idempotent, and its result is always an exact
integer multiple of the tick size, for every input price. -/
theorem C7_tick_rounding (p : ℚ) :
    roundToTick (roundToTick p) = roundToTick p ∧
    ∃ k : ℤ, roundToTick p = (k : ℚ) * TICK_SIZE := by
  have ht : (TICK_SIZE : ℚ) ≠ 0 := by norm_num [TICK_SIZE]
  constructor
  · show roundToTick ((pyRound (p / TICK_SIZE) : ℚ) * TICK_SIZE) = _
    unfold roundToTick
    rw [mul_div_cancel_right₀ _ ht, pyRound_intCast]
  · exact ⟨pyRound (p / TICK_SIZE), rfl⟩

/-! ### C5 -/

/-- C5: `_atr14` returns exactly 0 for fewer than 15 bars; for 15 or
more bars it matches the spec's seeded true-range average over the most
recent 14 bars; on the synthetic 15-bar input it is the positive value
7100/14 = 3550/7; and it is non-negative on every input. -/
theorem C5_atr_contract :
    (∀ bars : List Bar, bars.length < 15 → atr14 bars = 0) ∧
    (∀ bars : List Bar, 15 ≤ bars.length → atr14 bars = atrSpec bars) ∧
    atr14 exampleBars = 3550 / 7 ∧ 0 < atr14 exampleBars ∧
    (∀ bars : List Bar, 0 ≤ atr14 bars) := by
  have hex : atr14 exampleBars = 3550 / 7 := by
    norm_num [atr14, exampleBars, pyMean, trList, trueRange, List.replicate]
  refine ⟨?_, atr14_eq_atrSpec, hex, by rw [hex]; norm_num, atr14_nonneg⟩
  intro bars h
  unfold atr14
  rw [if_pos h]

/-- C5 witness: the guard clause at a one-bar input and the window
clause at the 15-bar synthetic input. -/
theorem C5_atr_contract_witness :
    atr14 [Bar.mk 1 1 1] = 0 ∧ atr14 exampleBars = atrSpec exampleBars :=
  ⟨C5_atr_contract.1 [Bar.mk 1 1 1] (by decide),
   C5_atr_contract.2.1 exampleBars (by decide)⟩

/-! ### C6 -/

/-- C6: whenever `|position| > position_limit`, a tranche-evaluation
step performs no order operations at all and leaves the stop cache
untouched, regardless of tranche configuration, price, or cached stop
state. -/
theorem C6_position_limit_guard (inp : EngineInput) (c : CoreCache)
    (h : inp.positionLimit < |inp.pos|) :
    evaluateTranches inp c = ([], c, none) := by
  unfold evaluateTranches
  rw [if_pos h]

/-- C6 witness: `position_limit = 25`, `position = 30` yields zero order
calls. -/
theorem C6_position_limit_guard_witness :
    evaluateTranches inpLimitEx initCache = ([], initCache, none) :=
  C6_position_limit_guard inpLimitEx initCache (by decide)

/-! ### C10 -/

theorem find?_first {α : Type} (p : α → Bool) (l₁ l₂ : List α) (r : α)
    (h₁ : ∀ x ∈ l₁, p x = false) (hr : p r = true) :
    List.find? p (l₁ ++ r :: l₂) = some r := by
  induction l₁ with
  | nil => simpa using List.find?_cons_of_pos _ hr
  | cons a t ih =>
    rw [List.cons_append, List.find?_cons_of_neg]
    · exact ih fun x hx => h₁ x (List.mem_cons_of_mem a hx)
    · simp [h₁ a (List.mem_cons_self a t)]

/-- C10: a position-poll update leaves the stored net position unchanged
when no row's symbol starts with the configured contract prefix (in
particular an empty row list), takes the first matching row's qty when
several match, and modifies no other engine state. -/
theorem C10_update_pos_frame (contract : String) (st : EngineStateRec)
    (rows : List PositionRow) :
    ((∀ r ∈ rows, pyStartswith r.symbol contract = false) →
      updatePosFromRows contract st rows = st) ∧
    (∀ (l₁ l₂ : List PositionRow) (r : PositionRow), rows = l₁ ++ r :: l₂ →
      (∀ r' ∈ l₁, pyStartswith r'.symbol contract = false) →
      pyStartswith r.symbol contract = true →
      updatePosFromRows contract st rows = { st with pos := r.qty }) ∧
    (updatePosFromRows contract st rows).price = st.price ∧
    (updatePosFromRows contract st rows).bars = st.bars ∧
    (updatePosFromRows contract st rows).cache = st.cache := by
  refine ⟨?_, ?_, ?_, ?_, ?_⟩
  · intro h
    unfold updatePosFromRows
    rw [List.find?_eq_none.mpr (fun x hx => by simp [h x hx])]
  · intro l₁ l₂ r hrows h₁ hr
    unfold updatePosFromRows
    rw [hrows, find?_first _ _ _ _ h₁ hr]
  all_goals
    unfold updatePosFromRows
    cases rows.find? (fun r => pyStartswith r.symbol contract) <;> rfl

/-- C10 witness: the first matching row of a two-row response sets the
position; the leading non-matching row is skipped. -/
theorem C10_update_pos_frame_witness :
    updatePosFromRows "MBT" stEx rowsEx = { stEx with pos := -3 } :=
  (C10_update_pos_frame "MBT" stEx rowsEx).2.1 [PositionRow.mk "ESZ5" 5] []
    (PositionRow.mk "MBTZ5" (-3)) rfl (by decide) (by decide)

/-! ### Dict lemmas for openByPx -/

theorem mem_insertByPrice {m : PxMap} {o : Order} {po : ℚ × Order}
    (h : po ∈ insertByPrice m o) : po ∈ m ∨ po = (o.price, o) := by
  unfold insertByPrice at h
  split at h
  · rcases List.mem_map.mp h with ⟨q, hq, hqe⟩
    by_cases hc : q.1 = o.price
    · right; rw [if_pos hc] at hqe; rw [← hqe, hc]
    · left; rw [if_neg hc] at hqe; rwa [← hqe]
  · rcases List.mem_append.mp h with h | h
    · exact Or.inl h
    · right; simpa using h

theorem mem_insertByPrice_of_ne {m : PxMap} {o : Order} {po : ℚ × Order}
    (h : po ∈ m) (hne : po.1 ≠ o.price) : po ∈ insertByPrice m o := by
  unfold insertByPrice
  split
  · exact List.mem_map.mpr ⟨po, h, by rw [if_neg hne]⟩
  · exact List.mem_append_left _ h

theorem self_mem_insertByPrice (m : PxMap) (o : Order) :
    (o.price, o) ∈ insertByPrice m o := by
  unfold insertByPrice
  split
  · next hex =>
    rcases hex with ⟨q, hq, hqe⟩
    exact List.mem_map.mpr ⟨q, hq, by rw [if_pos hqe, hqe]⟩
  · exact List.mem_append_right _ (by simp)

theorem mem_foldl_insert (l : List Order) : ∀ {m : PxMap} {po : ℚ × Order},
    po ∈ l.foldl insertByPrice m → po ∈ m ∨ (po.2 ∈ l ∧ po.1 = po.2.price) := by
  induction l with
  | nil => intro m po h; exact Or.inl h
  | cons o t ih =>
    intro m po h
    rw [List.foldl_cons] at h
    rcases ih h with h' | h'
    · rcases mem_insertByPrice h' with h'' | h''
      · exact Or.inl h''
      · right; rw [h'']; exact ⟨List.mem_cons_self o t, rfl⟩
    · right; exact ⟨List.mem_cons_of_mem _ h'.1, h'.2⟩

theorem mem_foldl_insert_of_ne (l : List Order) : ∀ {m : PxMap} {po : ℚ × Order},
    po ∈ m → (∀ o ∈ l, o.price ≠ po.1) → po ∈ l.foldl insertByPrice m := by
  induction l with
  | nil => intro m po h _; exact h
  | cons o t ih =>
    intro m po h hne
    rw [List.foldl_cons]
    refine ih (mem_insertByPrice_of_ne h ?_) (fun o' ho' => hne o' (List.mem_cons_of_mem _ ho'))
    exact fun he => hne o (List.mem_cons_self o t) he.symm

theorem hasKey_insertByPrice_mono {m : PxMap} {p : ℚ} {o : Order}
    (h : HasKey m p) : HasKey (insertByPrice m o) p := by
  rcases h with ⟨po, hpo, hk⟩
  by_cases hc : po.1 = o.price
  · refine ⟨(o.price, o), self_mem_insertByPrice m o, ?_⟩
    rw [← hc]
    exact hk
  · exact ⟨po, mem_insertByPrice_of_ne hpo hc, hk⟩

theorem hasKey_foldl_insert (l : List Order) : ∀ {m : PxMap} {p : ℚ},
    HasKey (l.foldl insertByPrice m) p ↔ HasKey m p ∨ ∃ o ∈ l, o.price = p := by
  induction l with
  | nil => intro m p; simp
  | cons o t ih =>
    intro m p
    rw [List.foldl_cons, ih]
    constructor
    · rintro (h | h)
      · rcases h with ⟨po, hpo, hk⟩
        rcases mem_insertByPrice hpo with h' | h'
        · exact Or.inl ⟨po, h', hk⟩
        · refine Or.inr ⟨o, List.mem_cons_self o t, ?_⟩
          rw [h'] at hk
          exact hk
      · rcases h with ⟨o', ho', hp⟩
        exact Or.inr ⟨o', List.mem_cons_of_mem _ ho', hp⟩
    · rintro (h | ⟨o', ho', hp⟩)
      · exact Or.inl (hasKey_insertByPrice_mono h)
      · rcases List.mem_cons.mp ho' with rfl | ho''
        · left
          rcases hp with rfl
          exact ⟨(o'.price, o'), self_mem_insertByPrice m o', rfl⟩
        · exact Or.inr ⟨o', ho'', hp⟩

theorem self_mem_foldl_insert (l : List Order) : ∀ {m : PxMap} {o : Order},
    o ∈ l → (l.map Order.price).Nodup → (o.price, o) ∈ l.foldl insertByPrice m := by
  induction l with
  | nil => intro m o h _; simp at h
  | cons a t ih =>
    intro m o ho hnd
    rw [List.foldl_cons]
    rw [List.map_cons, List.nodup_cons] at hnd
    rcases List.mem_cons.mp ho with rfl | ho'
    · refine mem_foldl_insert_of_ne t (self_mem_insertByPrice m o) ?_
      intro o' ho' heq
      apply hnd.1
      have hee : o'.price = o.price := heq
      rw [← hee]
      exact List.mem_map_of_mem Order.price ho'
    · exact ih ho' hnd.2

theorem mem_openByPx {raw : List Order} {po : ℚ × Order} (h : po ∈ openByPx raw) :
    po.2 ∈ raw ∧ po.1 = po.2.price := by
  rcases mem_foldl_insert raw h with h' | h'
  · simp at h'
  · exact h'

theorem hasKey_openByPx {raw : List Order} {p : ℚ} :
    HasKey (openByPx raw) p ↔ ∃ o ∈ raw, o.price = p := by
  rw [openByPx, hasKey_foldl_insert]
  simp [HasKey]

theorem self_mem_openByPx {raw : List Order} {o : Order} (ho : o ∈ raw)
    (hnd : (raw.map Order.price).Nodup) : (o.price, o) ∈ openByPx raw :=
  self_mem_foldl_insert raw ho hnd

/-! ### Cancel-phase lemmas -/

theorem mem_cancelPhase {want : List (LegName × Option ℚ)} {k : Nat} :
    ∀ {m : PxMap}, OrderAction.cancel k ∈ cancelPhase want m ↔
      ∃ po ∈ m, po.2.orderId = k ∧ po.2.reduceOnly = true ∧ po.1 ∉ wantVals want := by
  intro m
  induction m with
  | nil => simp [cancelPhase]
  | cons po rest ih =>
    unfold cancelPhase
    split
    · next hc =>
      rw [List.mem_cons, ih]
      constructor
      · rintro (h | ⟨q, hq, hk, hro, hnw⟩)
        · refine ⟨po, List.mem_cons_self po rest, ?_, hc.1, hc.2⟩
          injection h with h
          exact h.symm
        · exact ⟨q, List.mem_cons_of_mem _ hq, hk, hro, hnw⟩
      · rintro ⟨q, hq, hk, hro, hnw⟩
        rcases List.mem_cons.mp hq with rfl | hq'
        · left; rw [hk]
        · right; exact ⟨q, hq', hk, hro, hnw⟩
    · next hc =>
      rw [ih]
      constructor
      · rintro ⟨q, hq, hk, hro, hnw⟩
        exact ⟨q, List.mem_cons_of_mem _ hq, hk, hro, hnw⟩
      · rintro ⟨q, hq, hk, hro, hnw⟩
        rcases List.mem_cons.mp hq with rfl | hq'
        · exact absurd ⟨hro, hnw⟩ hc
        · exact ⟨q, hq', hk, hro, hnw⟩

theorem cancelPhase_shape {want : List (LegName × Option ℚ)} :
    ∀ {m : PxMap} {a : OrderAction}, a ∈ cancelPhase want m →
      ∃ k, a = OrderAction.cancel k := by
  intro m
  induction m with
  | nil => intro a h; simp [cancelPhase] at h
  | cons po rest ih =>
    intro a h
    unfold cancelPhase at h
    split at h
    · rcases List.mem_cons.mp h with rfl | h'
      · exact ⟨po.2.orderId, rfl⟩
      · exact ih h'
    · exact ih h

theorem cancelPhase_eq_nil {want : List (LegName × Option ℚ)} :
    ∀ {m : PxMap}, (∀ po ∈ m, po.2.reduceOnly = true → po.1 ∈ wantVals want) →
      cancelPhase want m = [] := by
  intro m
  induction m with
  | nil => intro _; rfl
  | cons po rest ih =>
    intro h
    unfold cancelPhase
    rw [if_neg, ih]
    · intro q hq hro
      exact h q (List.mem_cons_of_mem _ hq) hro
    · rintro ⟨hro, hnw⟩
      exact hnw (h po (List.mem_cons_self po rest) hro)

/-! ### Action bookkeeping lemmas -/

theorem cancelledIds_append (l₁ l₂ : List OrderAction) :
    cancelledIds (l₁ ++ l₂) = cancelledIds l₁ ++ cancelledIds l₂ :=
  List.filterMap_append l₁ l₂ _

theorem submittedOrders_append (l₁ l₂ : List OrderAction) :
    submittedOrders (l₁ ++ l₂) = submittedOrders l₁ ++ submittedOrders l₂ :=
  List.filterMap_append l₁ l₂ _

theorem mem_cancelledIds {acts : List OrderAction} {k : Nat} :
    k ∈ cancelledIds acts ↔ OrderAction.cancel k ∈ acts := by
  unfold cancelledIds
  rw [List.mem_filterMap]
  constructor
  · rintro ⟨a, ha, he⟩
    cases a with
    | cancel oid => simp at he; rwa [← he]
    | submit s q t px ro r => simp at he
    | modify oid px => simp at he
  · intro h
    exact ⟨OrderAction.cancel k, h, rfl⟩

theorem mem_submittedOrders {acts : List OrderAction} {o : Order} :
    o ∈ submittedOrders acts ↔
      ∃ s q t, OrderAction.submit s q t o.price o.reduceOnly (some o.orderId) ∈ acts := by
  unfold submittedOrders
  rw [List.mem_filterMap]
  constructor
  · rintro ⟨a, ha, he⟩
    cases a with
    | cancel oid => simp at he
    | submit s q t px ro r =>
      cases r with
      | none => simp at he
      | some oid =>
        simp only [Option.some.injEq] at he
        refine ⟨s, q, t, ?_⟩
        rw [← he]
        exact ha
    | modify oid px => simp at he
  · rintro ⟨s, q, t, h⟩
    exact ⟨OrderAction.submit s q t o.price o.reduceOnly (some o.orderId), h, rfl⟩

/-! ### Submit-phase lemmas -/

theorem submitPhase_cons_none (oracle : BrokerOracle) (tn : TrName) (m : PxMap)
    (mkt : ℚ) (qty : Int) (side : String) (leg : LegName)
    (rest : List (LegName × Option ℚ)) (c : CoreCache) :
    submitPhase oracle tn m mkt qty side ((leg, none) :: rest) c =
      submitPhase oracle tn m mkt qty side rest c := rfl

theorem submitPhase_cons_haskey (oracle : BrokerOracle) (tn : TrName) (m : PxMap)
    (mkt : ℚ) (qty : Int) (side : String) (leg : LegName) (px : ℚ)
    (rest : List (LegName × Option ℚ)) (c : CoreCache) (h : HasKey m px) :
    submitPhase oracle tn m mkt qty side ((leg, some px) :: rest) c =
      submitPhase oracle tn m mkt qty side rest c := by
  simp [submitPhase, h]

theorem submitPhase_cons_ok (oracle : BrokerOracle) (tn : TrName) (m : PxMap)
    (mkt : ℚ) (qty : Int) (side : String) (leg : LegName) (px : ℚ) (oid : Nat)
    (rest : List (LegName × Option ℚ)) (c : CoreCache) (h : ¬HasKey m px)
    (hres : oracle.submitRes px = Except.ok oid) :
    submitPhase oracle tn m mkt qty side ((leg, some px) :: rest) c =
      (OrderAction.submit side qty (legTypeFor side px mkt) px true (some oid) ::
        (submitPhase oracle tn m mkt qty side rest
          (if tn = TrName.core_runner ∧ leg = LegName.stop then
            CoreCache.mk (some oid) (some px) else c)).1,
       (submitPhase oracle tn m mkt qty side rest
          (if tn = TrName.core_runner ∧ leg = LegName.stop then
            CoreCache.mk (some oid) (some px) else c)).2) := by
  simp [submitPhase, h, hres]

theorem submitPhase_cons_error (oracle : BrokerOracle) (tn : TrName) (m : PxMap)
    (mkt : ℚ) (qty : Int) (side : String) (leg : LegName) (px : ℚ) (e : String)
    (rest : List (LegName × Option ℚ)) (c : CoreCache) (h : ¬HasKey m px)
    (hres : oracle.submitRes px = Except.error e) :
    submitPhase oracle tn m mkt qty side ((leg, some px) :: rest) c =
      (OrderAction.submit side qty (legTypeFor side px mkt) px true none ::
        (submitPhase oracle tn m mkt qty side rest c).1,
       (submitPhase oracle tn m mkt qty side rest c).2) := by
  simp [submitPhase, h, hres]

theorem submitPhase_shape (oracle : BrokerOracle) (tn : TrName) (m : PxMap)
    (mkt : ℚ) (qty : Int) (side : String) :
    ∀ (want : List (LegName × Option ℚ)) (c : CoreCache) (a : OrderAction),
      a ∈ (submitPhase oracle tn m mkt qty side want c).1 →
      ∃ px r, a = OrderAction.submit side qty (legTypeFor side px mkt) px true r ∧
        (∃ leg, (leg, some px) ∈ want) ∧ ¬HasKey m px := by
  intro want
  induction want with
  | nil => intro c a h; simp [submitPhase] at h
  | cons hd rest ih =>
    intro c a h
    obtain ⟨leg, px?⟩ := hd
    cases px? with
    | none =>
      rw [submitPhase_cons_none] at h
      rcases ih c a h with ⟨px, r, he, ⟨l', hl⟩, hk⟩
      exact ⟨px, r, he, ⟨l', List.mem_cons_of_mem _ hl⟩, hk⟩
    | some px =>
      by_cases hkey : HasKey m px
      · rw [submitPhase_cons_haskey _ _ _ _ _ _ _ _ _ _ hkey] at h
        rcases ih c a h with ⟨px', r, he, ⟨l', hl⟩, hk⟩
        exact ⟨px', r, he, ⟨l', List.mem_cons_of_mem _ hl⟩, hk⟩
      · cases hres : oracle.submitRes px with
        | ok oid =>
          rw [submitPhase_cons_ok _ _ _ _ _ _ _ _ _ _ _ hkey hres] at h
          rcases List.mem_cons.mp h with rfl | h'
          · exact ⟨px, some oid, rfl, ⟨leg, List.mem_cons_self _ _⟩, hkey⟩
          · rcases ih _ a h' with ⟨px', r, he, ⟨l', hl⟩, hk⟩
            exact ⟨px', r, he, ⟨l', List.mem_cons_of_mem _ hl⟩, hk⟩
        | error e =>
          rw [submitPhase_cons_error _ _ _ _ _ _ _ _ _ _ _ hkey hres] at h
          rcases List.mem_cons.mp h with rfl | h'
          · exact ⟨px, none, rfl, ⟨leg, List.mem_cons_self _ _⟩, hkey⟩
          · rcases ih _ a h' with ⟨px', r, he, ⟨l', hl⟩, hk⟩
            exact ⟨px', r, he, ⟨l', List.mem_cons_of_mem _ hl⟩, hk⟩

theorem submitPhase_submit_mem (oracle : BrokerOracle) (tn : TrName) (m : PxMap)
    (mkt : ℚ) (qty : Int) (side : String) {leg : LegName} {px : ℚ} {oid : Nat} :
    ∀ (want : List (LegName × Option ℚ)) (c : CoreCache),
      (leg, some px) ∈ want → ¬HasKey m px →
      oracle.submitRes px = Except.ok oid →
      OrderAction.submit side qty (legTypeFor side px mkt) px true (some oid) ∈
        (submitPhase oracle tn m mkt qty side want c).1 := by
  intro want
  induction want with
  | nil => intro c h _ _; simp at h
  | cons hd rest ih =>
    intro c hmem hk hres
    rcases List.mem_cons.mp hmem with rfl | hmem'
    · rw [submitPhase_cons_ok _ _ _ _ _ _ _ _ _ _ _ hk hres]
      exact List.mem_cons_self _ _
    · obtain ⟨leg', px?⟩ := hd
      cases px? with
      | none =>
        rw [submitPhase_cons_none]
        exact ih c hmem' hk hres
      | some px' =>
        by_cases hkey : HasKey m px'
        · rw [submitPhase_cons_haskey _ _ _ _ _ _ _ _ _ _ hkey]
          exact ih c hmem' hk hres
        · cases hres' : oracle.submitRes px' with
          | ok oid' =>
            rw [submitPhase_cons_ok _ _ _ _ _ _ _ _ _ _ _ hkey hres']
            exact List.mem_cons_of_mem _ (ih _ hmem' hk hres)
          | error e =>
            rw [submitPhase_cons_error _ _ _ _ _ _ _ _ _ _ _ hkey hres']
            exact List.mem_cons_of_mem _ (ih _ hmem' hk hres)

theorem submitPhase_eq_nil (oracle : BrokerOracle) (tn : TrName) (m : PxMap)
    (mkt : ℚ) (qty : Int) (side : String) :
    ∀ (want : List (LegName × Option ℚ)) (c : CoreCache),
      (∀ leg px, (leg, some px) ∈ want → HasKey m px) →
      submitPhase oracle tn m mkt qty side want c = ([], c) := by
  intro want
  induction want with
  | nil => intro c _; rfl
  | cons hd rest ih =>
    intro c h
    obtain ⟨leg, px?⟩ := hd
    cases px? with
    | none =>
      rw [submitPhase_cons_none]
      exact ih c (fun l p hp => h l p (List.mem_cons_of_mem _ hp))
    | some px =>
      rw [submitPhase_cons_haskey _ _ _ _ _ _ _ _ _ _
        (h leg px (List.mem_cons_self _ _))]
      exact ih c (fun l p hp => h l p (List.mem_cons_of_mem _ hp))

theorem submitPhase_cache_cases (oracle : BrokerOracle) (tn : TrName) (m : PxMap)
    (mkt : ℚ) (qty : Int) (side : String) :
    ∀ (want : List (LegName × Option ℚ)) (c : CoreCache),
      (submitPhase oracle tn m mkt qty side want c).2 = c ∨
      ∃ oid px, (LegName.stop, some px) ∈ want ∧
        (submitPhase oracle tn m mkt qty side want c).2 =
          CoreCache.mk (some oid) (some px) := by
  intro want
  induction want with
  | nil => intro c; exact Or.inl rfl
  | cons hd rest ih =>
    intro c
    obtain ⟨leg, px?⟩ := hd
    cases px? with
    | none =>
      rw [submitPhase_cons_none]
      rcases ih c with h | ⟨oid, px, hmem, he⟩
      · exact Or.inl h
      · exact Or.inr ⟨oid, px, List.mem_cons_of_mem _ hmem, he⟩
    | some px =>
      by_cases hkey : HasKey m px
      · rw [submitPhase_cons_haskey _ _ _ _ _ _ _ _ _ _ hkey]
        rcases ih c with h | ⟨oid, px', hmem, he⟩
        · exact Or.inl h
        · exact Or.inr ⟨oid, px', List.mem_cons_of_mem _ hmem, he⟩
      · cases hres : oracle.submitRes px with
        | ok oid =>
          rw [submitPhase_cons_ok _ _ _ _ _ _ _ _ _ _ _ hkey hres]
          by_cases hguard : tn = TrName.core_runner ∧ leg = LegName.stop
          · rw [if_pos hguard]
            rcases ih (CoreCache.mk (some oid) (some px)) with h | ⟨oid', px', hmem, he⟩
            · refine Or.inr ⟨oid, px, ?_, h⟩
              rw [← hguard.2]
              exact List.mem_cons_self _ _
            · exact Or.inr ⟨oid', px', List.mem_cons_of_mem _ hmem, he⟩
          · rw [if_neg hguard]
            rcases ih c with h | ⟨oid', px', hmem, he⟩
            · exact Or.inl h
            · exact Or.inr ⟨oid', px', List.mem_cons_of_mem _ hmem, he⟩
        | error e =>
          rw [submitPhase_cons_error _ _ _ _ _ _ _ _ _ _ _ hkey hres]
          rcases ih c with h | ⟨oid', px', hmem, he⟩
          · exact Or.inl h
          · exact Or.inr ⟨oid', px', List.mem_cons_of_mem _ hmem, he⟩

theorem submitPhase_cache_notCore (oracle : BrokerOracle) (tn : TrName) (m : PxMap)
    (mkt : ℚ) (qty : Int) (side : String) (htn : tn ≠ TrName.core_runner) :
    ∀ (want : List (LegName × Option ℚ)) (c : CoreCache),
      (submitPhase oracle tn m mkt qty side want c).2 = c := by
  intro want
  induction want with
  | nil => intro c; rfl
  | cons hd rest ih =>
    intro c
    obtain ⟨leg, px?⟩ := hd
    cases px? with
    | none => rw [submitPhase_cons_none]; exact ih c
    | some px =>
      by_cases hkey : HasKey m px
      · rw [submitPhase_cons_haskey _ _ _ _ _ _ _ _ _ _ hkey]; exact ih c
      · cases hres : oracle.submitRes px with
        | ok oid =>
          rw [submitPhase_cons_ok _ _ _ _ _ _ _ _ _ _ _ hkey hres]
          rw [if_neg (fun hg => htn hg.1)]
          exact ih c
        | error e =>
          rw [submitPhase_cons_error _ _ _ _ _ _ _ _ _ _ _ hkey hres]
          exact ih c

theorem submitPhase_stopPx (oracle : BrokerOracle) (tn : TrName) (m : PxMap)
    (mkt : ℚ) (qty : Int) (side : String) (want : List (LegName × Option ℚ))
    (c : CoreCache) (h : ∀ px, (LegName.stop, some px) ∈ want → c.stopPx = some px) :
    ((submitPhase oracle tn m mkt qty side want c).2).stopPx = c.stopPx := by
  rcases submitPhase_cache_cases oracle tn m mkt qty side want c with he | ⟨oid, px, hmem, he⟩
  · rw [he]
  · rw [he, h px hmem]

theorem submittedOrders_submitPhase (oracle : BrokerOracle) (tn : TrName) (m : PxMap)
    (mkt : ℚ) (qty : Int) (side : String) :
    ∀ (want : List (LegName × Option ℚ)) (c : CoreCache) (o : Order),
      o ∈ submittedOrders (submitPhase oracle tn m mkt qty side want c).1 ↔
        o.reduceOnly = true ∧ (∃ leg, (leg, some o.price) ∈ want) ∧
        ¬HasKey m o.price ∧ oracle.submitRes o.price = Except.ok o.orderId := by
  intro want
  induction want with
  | nil =>
    intro c o
    simp [submitPhase, submittedOrders]
  | cons hd rest ih =>
    intro c o
    obtain ⟨leg, px?⟩ := hd
    cases px? with
    | none =>
      rw [submitPhase_cons_none, ih]
      constructor
      · rintro ⟨hro, ⟨l', hl⟩, hk, hres⟩
        exact ⟨hro, ⟨l', List.mem_cons_of_mem _ hl⟩, hk, hres⟩
      · rintro ⟨hro, ⟨l', hl⟩, hk, hres⟩
        rcases List.mem_cons.mp hl with he | hl'
        · cases he
        · exact ⟨hro, ⟨l', hl'⟩, hk, hres⟩
    | some px =>
      by_cases hkey : HasKey m px
      · rw [submitPhase_cons_haskey _ _ _ _ _ _ _ _ _ _ hkey, ih]
        constructor
        · rintro ⟨hro, ⟨l', hl⟩, hk, hres⟩
          exact ⟨hro, ⟨l', List.mem_cons_of_mem _ hl⟩, hk, hres⟩
        · rintro ⟨hro, ⟨l', hl⟩, hk, hres⟩
          rcases List.mem_cons.mp hl with he | hl'
          · exfalso
            apply hk
            injection he with he1 he2
            injection he2 with he2
            rw [he2]
            exact hkey
          · exact ⟨hro, ⟨l', hl'⟩, hk, hres⟩
      · cases hres : oracle.submitRes px with
        | ok oid =>
          rw [submitPhase_cons_ok _ _ _ _ _ _ _ _ _ _ _ hkey hres]
          have hcons : submittedOrders
              (OrderAction.submit side qty (legTypeFor side px mkt) px true (some oid) ::
                (submitPhase oracle tn m mkt qty side rest
                  (if tn = TrName.core_runner ∧ leg = LegName.stop then
                    CoreCache.mk (some oid) (some px) else c)).1) =
              Order.mk oid px true :: submittedOrders
                (submitPhase oracle tn m mkt qty side rest
                  (if tn = TrName.core_runner ∧ leg = LegName.stop then
                    CoreCache.mk (some oid) (some px) else c)).1 := rfl
          rw [hcons, List.mem_cons, ih]
          constructor
          · rintro (rfl | ⟨hro, ⟨l', hl⟩, hk, hres'⟩)
            · exact ⟨rfl, ⟨leg, List.mem_cons_self _ _⟩, hkey, hres⟩
            · exact ⟨hro, ⟨l', List.mem_cons_of_mem _ hl⟩, hk, hres'⟩
          · rintro ⟨hro, ⟨l', hl⟩, hk, hres'⟩
            rcases List.mem_cons.mp hl with he | hl'
            · left
              injection he with he1 he2
              injection he2 with he2
              cases o with
              | mk oid' px' ro' =>
                simp only at hro hres' he2
                rw [he2] at hres'
                rw [hres] at hres'
                injection hres' with hoid
                rw [hro, he2, hoid]
            · right; exact ⟨hro, ⟨l', hl'⟩, hk, hres'⟩
        | error e =>
          rw [submitPhase_cons_error _ _ _ _ _ _ _ _ _ _ _ hkey hres]
          have hcons : submittedOrders
              (OrderAction.submit side qty (legTypeFor side px mkt) px true none ::
                (submitPhase oracle tn m mkt qty side rest c).1) =
              submittedOrders (submitPhase oracle tn m mkt qty side rest c).1 := rfl
          rw [hcons, ih]
          constructor
          · rintro ⟨hro, ⟨l', hl⟩, hk, hres'⟩
            exact ⟨hro, ⟨l', List.mem_cons_of_mem _ hl⟩, hk, hres'⟩
          · rintro ⟨hro, ⟨l', hl⟩, hk, hres'⟩
            rcases List.mem_cons.mp hl with he | hl'
            · exfalso
              injection he with he1 he2
              injection he2 with he2
              rw [he2] at hres'
              rw [hres] at hres'
              cases hres'
            · exact ⟨hro, ⟨l', hl'⟩, hk, hres'⟩

/-! ### Further reconcile lemmas -/

theorem mem_wantVals {want : List (LegName × Option ℚ)} {p : ℚ} :
    p ∈ wantVals want ↔ ∃ leg, (leg, some p) ∈ want := by
  unfold wantVals
  rw [List.mem_filterMap]
  constructor
  · rintro ⟨⟨leg, px?⟩, hmem, he⟩
    have he' : px? = some p := he
    rw [he'] at hmem
    exact ⟨leg, hmem⟩
  · rintro ⟨leg, h⟩
    exact ⟨(leg, some p), h, rfl⟩

theorem submitPhase_no_cancel (oracle : BrokerOracle) (tn : TrName) (m : PxMap)
    (mkt : ℚ) (qty : Int) (side : String) (want : List (LegName × Option ℚ))
    (c : CoreCache) (k : Nat) :
    OrderAction.cancel k ∉ (submitPhase oracle tn m mkt qty side want c).1 := by
  intro h
  rcases submitPhase_shape oracle tn m mkt qty side want c _ h with ⟨px, r, he, _, _⟩
  simp at he

theorem submitPhase_no_modify (oracle : BrokerOracle) (tn : TrName) (m : PxMap)
    (mkt : ℚ) (qty : Int) (side : String) (want : List (LegName × Option ℚ))
    (c : CoreCache) (k : Nat) (p : ℚ) :
    OrderAction.modify k p ∉ (submitPhase oracle tn m mkt qty side want c).1 := by
  intro h
  rcases submitPhase_shape oracle tn m mkt qty side want c _ h with ⟨px, r, he, _, _⟩
  simp at he

theorem submittedOrders_cancelPhase (want : List (LegName × Option ℚ)) :
    ∀ m : PxMap, submittedOrders (cancelPhase want m) = [] := by
  intro m
  induction m with
  | nil => rfl
  | cons po rest ih =>
    unfold cancelPhase
    split
    · show submittedOrders (OrderAction.cancel po.2.orderId :: cancelPhase want rest) = []
      rw [show submittedOrders (OrderAction.cancel po.2.orderId :: cancelPhase want rest) =
        submittedOrders (cancelPhase want rest) from rfl]
      exact ih
    · exact ih

theorem cancelPhase_no_modify (want : List (LegName × Option ℚ)) (m : PxMap)
    (k : Nat) (p : ℚ) : OrderAction.modify k p ∉ cancelPhase want m := by
  intro h
  rcases cancelPhase_shape h with ⟨k', he⟩
  simp at he

theorem reconcileTranche_acts (oracle : BrokerOracle) (trName : TrName)
    (want : List (LegName × Option ℚ)) (qty : Int) (side : String) (mkt : ℚ)
    (c : CoreCache) (raw : List Order)
    (hfetch : oracle.fetchRecon trName = Except.ok raw) :
    reconcileTranche oracle trName want qty side mkt c =
      (cancelPhase want (openByPx raw) ++
        (submitPhase oracle trName (openByPx raw) mkt qty side want c).1,
       (submitPhase oracle trName (openByPx raw) mkt qty side want c).2) := by
  unfold reconcileTranche
  rw [hfetch]
  rfl

/-! ### C1 -/

/-- C1 (amended): a reconciliation pass for a single tranche, run against
a fixed broker snapshot with pairwise-distinct order prices and ids, on
which every open order resting at a desired price is reduce-only and all
submits succeed, cancels exactly the rogue reduce-only orders, submits
exactly the missing non-null desired prices, and leaves the broker's
reduce-only open-order price set equal to the tranche's non-null desired
value set. (The original claim's multi-tranche part is refuted by
`C1_reconcile_invariant_counterexample`: a pass for one tranche cancels
the other active tranche's resting legs.) -/
theorem C1_reconcile_invariant (oracle : BrokerOracle) (trName : TrName)
    (want : List (LegName × Option ℚ)) (qty : Int) (side : String) (mkt : ℚ)
    (c : CoreCache) (raw : List Order)
    (hfetch : oracle.fetchRecon trName = Except.ok raw)
    (hids : (raw.map Order.orderId).Nodup)
    (hpxs : (raw.map Order.price).Nodup)
    (hok : ∀ px : ℚ, ∃ oid, oracle.submitRes px = Except.ok oid)
    (hro : ∀ o ∈ raw, o.price ∈ wantVals want → o.reduceOnly = true) :
    (∀ o ∈ raw, o.reduceOnly = true → o.price ∉ wantVals want →
      OrderAction.cancel o.orderId ∈ (reconcileTranche oracle trName want qty side mkt c).1) ∧
    (∀ px ∈ wantVals want, (∀ o ∈ raw, o.price ≠ px) →
      ∃ oid, OrderAction.submit side qty (legTypeFor side px mkt) px true (some oid) ∈
        (reconcileTranche oracle trName want qty side mkt c).1) ∧
    (∀ p : ℚ,
      (∃ o ∈ postOrders raw (reconcileTranche oracle trName want qty side mkt c).1,
        o.reduceOnly = true ∧ o.price = p) ↔ p ∈ wantVals want) := by
  have hacts : (reconcileTranche oracle trName want qty side mkt c).1 =
      cancelPhase want (openByPx raw) ++
        (submitPhase oracle trName (openByPx raw) mkt qty side want c).1 := by
    rw [reconcileTranche_acts oracle trName want qty side mkt c raw hfetch]
  have hcancel : ∀ o ∈ raw, o.reduceOnly = true → o.price ∉ wantVals want →
      OrderAction.cancel o.orderId ∈ (reconcileTranche oracle trName want qty side mkt c).1 := by
    intro o ho hro' hnw
    rw [hacts]
    apply List.mem_append_left
    rw [mem_cancelPhase]
    exact ⟨(o.price, o), self_mem_openByPx ho hpxs, rfl, hro', hnw⟩
  have hnotcancel : ∀ o ∈ raw, o.price ∈ wantVals want →
      o.orderId ∉ cancelledIds (reconcileTranche oracle trName want qty side mkt c).1 := by
    intro o ho hw hmem
    rw [mem_cancelledIds, hacts] at hmem
    rcases List.mem_append.mp hmem with hmem | hmem
    · rw [mem_cancelPhase] at hmem
      rcases hmem with ⟨po, hpo, hkid, hro', hnw⟩
      rcases mem_openByPx hpo with ⟨hpo2, hpo1⟩
      have : po.2 = o := List.inj_on_of_nodup_map hids hpo2 ho hkid
      apply hnw
      rw [hpo1, this]
      exact hw
    · exact submitPhase_no_cancel oracle trName _ mkt qty side want c _ hmem
  refine ⟨hcancel, ?_, ?_⟩
  · intro px hpx hnone
    rcases mem_wantVals.mp hpx with ⟨leg, hleg⟩
    have hkey : ¬HasKey (openByPx raw) px := by
      rw [hasKey_openByPx]
      rintro ⟨o, ho, hp⟩
      exact hnone o ho hp
    obtain ⟨oid, hoid⟩ := hok px
    refine ⟨oid, ?_⟩
    rw [hacts]
    exact List.mem_append_right _
      (submitPhase_submit_mem oracle trName _ mkt qty side want c hleg hkey hoid)
  · intro p
    constructor
    · rintro ⟨o, ho, hro', hp⟩
      rcases List.mem_append.mp ho with hsurv | hsub
      · have hmem := List.mem_filter.mp hsurv
        have ho' : o ∈ raw := hmem.1
        have hnc : o.orderId ∉
            cancelledIds (reconcileTranche oracle trName want qty side mkt c).1 :=
          of_decide_eq_true hmem.2
        by_contra hnp
        apply hnc
        rw [mem_cancelledIds]
        apply hcancel o ho' hro'
        rw [hp]
        exact hnp
      · rw [hacts, submittedOrders_append, submittedOrders_cancelPhase,
          List.nil_append] at hsub
        rw [submittedOrders_submitPhase] at hsub
        rcases hsub with ⟨_, ⟨leg, hleg⟩, _, _⟩
        rw [← hp]
        exact mem_wantVals.mpr ⟨leg, hleg⟩
    · intro hp
      by_cases hkey : HasKey (openByPx raw) p
      · rcases hasKey_openByPx.mp hkey with ⟨o, ho, hop⟩
        have hwant : o.price ∈ wantVals want := by rw [hop]; exact hp
        refine ⟨o, List.mem_append_left _ ?_, hro o ho hwant, hop⟩
        rw [List.mem_filter]
        exact ⟨ho, decide_eq_true (hnotcancel o ho hwant)⟩
      · rcases mem_wantVals.mp hp with ⟨leg, hleg⟩
        obtain ⟨oid, hoid⟩ := hok p
        refine ⟨Order.mk oid p true, List.mem_append_right _ ?_, rfl, rfl⟩
        rw [hacts, submittedOrders_append, submittedOrders_cancelPhase,
          List.nil_append, submittedOrders_submitPhase]
        exact ⟨rfl, ⟨leg, hleg⟩, hkey, hoid⟩

theorem scalpPassCx_eq : scalpPassCx =
    [OrderAction.cancel 7,
     OrderAction.submit "BUY" 10 "LIMIT" 103300 true (some 1),
     OrderAction.submit "BUY" 10 "LIMIT" 102950 true (some 1),
     OrderAction.submit "BUY" 10 "STOP" 104400 true (some 1)] := by
  norm_num [scalpPassCx, reconcileTranche, oracleCx, fetchHandled, openByPx,
    insertByPrice, cancelPhase, submitPhase, wantVals, scalpWant, scalpEx,
    coreStopOrderCx, initCache, HasKey, legTypeFor, roundToTick, pyRound,
    TICK_SIZE]
  decide

/-- C1 counterexample: with both tranches active, the scalp tranche's
reconciliation pass cancels the core tranche's resting reduce-only stop
order at 90000 even though 90000 is in the core tranche's desired
leg-price set, so after the scalp pass no reduce-only order rests at the
core tranche's desired price: one tranche's pass disturbs the other's
invariant, refuting the claim as stated. -/
theorem C1_reconcile_invariant_counterexample :
    (90000 : ℚ) ∈ wantVals (coreWant (some 90000) []) ∧
    OrderAction.cancel coreStopOrderCx.orderId ∈ scalpPassCx ∧
    ∀ o ∈ postOrders [coreStopOrderCx] scalpPassCx,
      ¬(o.reduceOnly = true ∧ o.price = 90000) := by
  refine ⟨by norm_num [wantVals, coreWant], ?_, ?_⟩
  · rw [scalpPassCx_eq]
    norm_num [coreStopOrderCx]
  · intro o ho
    rw [scalpPassCx_eq] at ho
    norm_num [postOrders, cancelledIds, submittedOrders, coreStopOrderCx] at ho
    rcases ho with rfl | rfl | rfl
    all_goals norm_num

/-- C1 witness: in a single-tranche scenario with one order already at a
desired price and one rogue reduce-only order, the pass cancels the
rogue. -/
theorem C1_reconcile_invariant_witness :
    OrderAction.cancel 2 ∈ (reconcileTranche oracleW1 TrName.scalp_add
      (scalpWant scalpEx) 10 "BUY" 104000 initCache).1 := by
  refine (C1_reconcile_invariant oracleW1 TrName.scalp_add (scalpWant scalpEx)
    10 "BUY" 104000 initCache rawW1 rfl (by decide)
    (by norm_num [rawW1, List.nodup_cons]) (fun px => ⟨5, rfl⟩) ?_).1
    (Order.mk 2 99000 true) (by norm_num [rawW1]) rfl ?_
  · intro o ho hw
    fin_cases ho <;> rfl
  · norm_num [wantVals, scalpWant, scalpEx, roundToTick, pyRound, TICK_SIZE]

/-! ### C4 -/

/-- C4: reconciliation is idempotent: when a second pass runs against
the broker state produced by applying the first pass's cancels and
successful submits to a snapshot with pairwise-distinct order prices and
ids, and all first-pass submits succeeded, the second pass issues zero
cancel and zero submit calls. -/
theorem C4_reconcile_idempotent (oracle oracle2 : BrokerOracle) (trName : TrName)
    (want : List (LegName × Option ℚ)) (qty : Int) (side : String) (mkt mkt2 : ℚ)
    (c c2 : CoreCache) (raw : List Order)
    (hfetch : oracle.fetchRecon trName = Except.ok raw)
    (hids : (raw.map Order.orderId).Nodup)
    (hpxs : (raw.map Order.price).Nodup)
    (hok : ∀ px : ℚ, ∃ oid, oracle.submitRes px = Except.ok oid)
    (hfetch2 : oracle2.fetchRecon trName = Except.ok
      (postOrders raw (reconcileTranche oracle trName want qty side mkt c).1)) :
    (reconcileTranche oracle2 trName want qty side mkt2 c2).1 = [] := by
  have hacts1 : (reconcileTranche oracle trName want qty side mkt c).1 =
      cancelPhase want (openByPx raw) ++
        (submitPhase oracle trName (openByPx raw) mkt qty side want c).1 := by
    rw [reconcileTranche_acts oracle trName want qty side mkt c raw hfetch]
  have hcancelled : ∀ o ∈ raw,
      o.orderId ∈ cancelledIds (reconcileTranche oracle trName want qty side mkt c).1 →
      o.reduceOnly = true ∧ o.price ∉ wantVals want := by
    intro o ho hmem
    rw [mem_cancelledIds, hacts1] at hmem
    rcases List.mem_append.mp hmem with hmem | hmem
    · rw [mem_cancelPhase] at hmem
      rcases hmem with ⟨po, hpo, hkid, hro', hnw⟩
      rcases mem_openByPx hpo with ⟨hpo2, hpo1⟩
      have he : po.2 = o := List.inj_on_of_nodup_map hids hpo2 ho hkid
      constructor
      · rw [← he]; exact hro'
      · rw [← he, ← hpo1]; exact hnw
    · exact absurd hmem (submitPhase_no_cancel oracle trName _ mkt qty side want c _)
  have hcancel : ∀ o ∈ raw, o.reduceOnly = true → o.price ∉ wantVals want →
      o.orderId ∈ cancelledIds (reconcileTranche oracle trName want qty side mkt c).1 := by
    intro o ho hro hnw
    rw [mem_cancelledIds, hacts1]
    apply List.mem_append_left
    rw [mem_cancelPhase]
    exact ⟨(o.price, o), self_mem_openByPx ho hpxs, rfl, hro, hnw⟩
  have hsubmitted : ∀ o ∈ submittedOrders (reconcileTranche oracle trName want qty side mkt c).1,
      o.price ∈ wantVals want := by
    intro o ho
    rw [hacts1, submittedOrders_append, submittedOrders_cancelPhase,
      List.nil_append, submittedOrders_submitPhase] at ho
    rcases ho with ⟨_, ⟨leg, hleg⟩, _, _⟩
    exact mem_wantVals.mpr ⟨leg, hleg⟩
  rw [show (reconcileTranche oracle2 trName want qty side mkt2 c2).1 =
      cancelPhase want (openByPx (postOrders raw
        (reconcileTranche oracle trName want qty side mkt c).1)) ++
        (submitPhase oracle2 trName (openByPx (postOrders raw
          (reconcileTranche oracle trName want qty side mkt c).1)) mkt2 qty side want c2).1
    from by rw [reconcileTranche_acts oracle2 trName want qty side mkt2 c2 _ hfetch2]]
  have hc : ∀ po ∈ openByPx (postOrders raw
      (reconcileTranche oracle trName want qty side mkt c).1),
      po.2.reduceOnly = true → po.1 ∈ wantVals want := by
    intro po hpo hro
    rcases mem_openByPx hpo with ⟨hpo2, hpo1⟩
    rw [hpo1]
    rcases List.mem_append.mp hpo2 with hsurv | hsub
    · have hmem := List.mem_filter.mp hsurv
      by_contra hnw
      exact (of_decide_eq_true hmem.2) (hcancel po.2 hmem.1 hro hnw)
    · exact hsubmitted po.2 hsub
  have hs : ∀ leg px, (leg, some px) ∈ want →
      HasKey (openByPx (postOrders raw
        (reconcileTranche oracle trName want qty side mkt c).1)) px := by
    intro leg px hlp
    rw [hasKey_openByPx]
    by_cases hkey : HasKey (openByPx raw) px
    · rcases hasKey_openByPx.mp hkey with ⟨o, ho, hop⟩
      refine ⟨o, List.mem_append_left _ ?_, hop⟩
      rw [List.mem_filter]
      refine ⟨ho, decide_eq_true ?_⟩
      intro hmem
      apply (hcancelled o ho hmem).2
      rw [hop]
      exact mem_wantVals.mpr ⟨leg, hlp⟩
    · obtain ⟨oid, hoid⟩ := hok px
      refine ⟨Order.mk oid px true, List.mem_append_right _ ?_, rfl⟩
      rw [hacts1, submittedOrders_append, submittedOrders_cancelPhase,
        List.nil_append, submittedOrders_submitPhase]
      exact ⟨rfl, ⟨leg, hlp⟩, hkey, hoid⟩
  rw [cancelPhase_eq_nil hc,
    submitPhase_eq_nil oracle2 trName _ mkt2 qty side want c2 hs]
  rfl

/-- C4 witness: the second pass over the state left by the first pass of
the single-tranche scenario issues no calls at all. -/
theorem C4_reconcile_idempotent_witness :
    (reconcileTranche oracleW4 TrName.scalp_add (scalpWant scalpEx) 10 "BUY"
      104000 initCache).1 = [] :=
  C4_reconcile_idempotent oracleW1 oracleW4 TrName.scalp_add (scalpWant scalpEx)
    10 "BUY" 104000 104000 initCache initCache rawW1 rfl (by decide)
    (by norm_num [rawW1, List.nodup_cons]) (fun px => ⟨5, rfl⟩) rfl

/-! ### Core tranche phase lemmas -/

theorem mem_coreWant_stop {sp : Option ℚ} {hts : List ℚ} {px : ℚ}
    (h : (LegName.stop, some px) ∈ coreWant sp hts) : sp = some px := by
  unfold coreWant at h
  rcases List.mem_cons.mp h with he | hmem
  · injection he with h1 h2
    rw [h2]
  · exfalso
    rcases List.mem_map.mp hmem with ⟨p, _, he⟩
    simp at he

theorem reconcileTranche_cache (oracle : BrokerOracle) (trName : TrName)
    (want : List (LegName × Option ℚ)) (qty : Int) (side : String) (mkt : ℚ)
    (c : CoreCache) :
    (reconcileTranche oracle trName want qty side mkt c).2 =
      (submitPhase oracle trName
        (openByPx (fetchHandled (oracle.fetchRecon trName))) mkt qty side want c).2 := rfl

theorem manageScalp_cache (oracle : BrokerOracle) (tr : ScalpTr) (pos : Int)
    (mkt : ℚ) (c : CoreCache) : (manageScalp oracle tr pos mkt c).2 = c := by
  unfold manageScalp
  split
  · rfl
  · rw [reconcileTranche_cache]
    exact submitPhase_cache_notCore oracle TrName.scalp_add _ mkt tr.qty "BUY"
      (fun h => TrName.noConfusion h) _ _

theorem initialPhase_of_tracked (oracle : BrokerOracle) (tr : CoreTr) (m : PxMap)
    (c : CoreCache) (h : ¬c.stopId = none) :
    initialPhase oracle tr m c = ([], c, none) := by
  simp [initialPhase, h]

theorem initialPhase_cases (oracle : BrokerOracle) (tr : CoreTr) (m : PxMap)
    (c : CoreCache) :
    (initialPhase oracle tr m c).2.1 = c ∨
    ∃ oid, (initialPhase oracle tr m c).2.1 =
      CoreCache.mk (some oid) (some (roundToTick tr.initialStop)) := by
  simp only [initialPhase]
  split
  · split
    · exact Or.inl rfl
    · cases hres : oracle.submitRes (roundToTick tr.initialStop) with
      | ok oid => exact Or.inr ⟨oid, rfl⟩
      | error e => exact Or.inl rfl
  · exact Or.inl rfl

theorem trailPhase_cases (oracle : BrokerOracle) (bars : List Bar) (c : CoreCache) :
    (trailPhase oracle bars c).2.1 = c ∨
    ∃ oid px newStop, c.stopId = some oid ∧ c.stopPx = some px ∧
      newStop < px - TICK_SIZE ∧
      (trailPhase oracle bars c).2.1 = CoreCache.mk (some oid) (some newStop) := by
  obtain ⟨sid, spx⟩ := c
  cases sid with
  | none => exact Or.inl rfl
  | some oid =>
    cases spx with
    | none => exact Or.inl rfl
    | some px =>
      unfold trailPhase
      dsimp only
      by_cases hlen : 15 ≤ bars.length
      · rw [if_pos hlen]
        by_cases hlt : trailCandidate bars < px - TICK_SIZE
        · rw [if_pos hlt]
          cases hres : oracle.modifyRes with
          | ok u => exact Or.inr ⟨oid, px, _, rfl, rfl, hlt, rfl⟩
          | error e => exact Or.inl rfl
        · rw [if_neg hlt]
          exact Or.inl rfl
      · rw [if_neg hlen]
        exact Or.inl rfl

theorem manageCore_eq (oracle : BrokerOracle) (tr : CoreTr) (pos : Int) (mkt : ℚ)
    (bars : List Bar) (c : CoreCache) (h : ¬|pos| < tr.qty) :
    manageCore oracle tr pos mkt bars c =
      match initialPhase oracle tr (openByPx (fetchHandled oracle.fetchCore)) c with
      | (a1, c1, some e) => (a1, c1, some e)
      | (a1, c1, none) =>
        match trailPhase oracle bars c1 with
        | (a2, c2, some e) => (a1 ++ a2, c2, some e)
        | (a2, c2, none) =>
          (a1 ++ a2 ++ (reconcileTranche oracle TrName.core_runner
              (coreWant c2.stopPx tr.hardTargets) tr.qty "BUY" mkt c2).1,
            (reconcileTranche oracle TrName.core_runner
              (coreWant c2.stopPx tr.hardTargets) tr.qty "BUY" mkt c2).2, none) := by
  unfold manageCore
  rw [if_neg h]

theorem manageCore_cache (oracle : BrokerOracle) (tr : CoreTr) (pos : Int)
    (mkt : ℚ) (bars : List Bar) (c : CoreCache) (hInv : CacheInv c) :
    CacheInv (manageCore oracle tr pos mkt bars c).2.1 ∧
    ∀ v, c.stopPx = some v →
      ∃ w, (manageCore oracle tr pos mkt bars c).2.1.stopPx = some w ∧ w ≤ v := by
  by_cases hq : |pos| < tr.qty
  · have he : manageCore oracle tr pos mkt bars c = ([], c, none) := by
      unfold manageCore
      rw [if_pos hq]
    rw [he]
    exact ⟨hInv, fun v hv => ⟨v, hv, le_refl v⟩⟩
  · rw [manageCore_eq oracle tr pos mkt bars c hq]
    rcases hip : initialPhase oracle tr (openByPx (fetchHandled oracle.fetchCore)) c
      with ⟨a1, c1, e1⟩
    have hc1 : CacheInv c1 ∧ ∀ v, c.stopPx = some v → c1.stopPx = some v := by
      constructor
      · rcases initialPhase_cases oracle tr (openByPx (fetchHandled oracle.fetchCore)) c
          with hcc | ⟨oid, hcc⟩
        · rw [hip] at hcc
          simp only at hcc
          rw [hcc]
          exact hInv
        · rw [hip] at hcc
          simp only at hcc
          rw [hcc]
          intro h
          cases h
      · intro v hv
        have hid : ¬c.stopId = none := by
          intro hnone
          rw [hInv hnone] at hv
          cases hv
        rw [initialPhase_of_tracked oracle tr _ c hid] at hip
        injection hip with h1 h2
        injection h2 with h2 h3
        rw [← h2]
        exact hv
    cases e1 with
    | some e => exact ⟨hc1.1, fun v hv => ⟨v, hc1.2 v hv, le_refl v⟩⟩
    | none =>
      dsimp only
      rcases htp : trailPhase oracle bars c1 with ⟨a2, c2, e2⟩
      have hc2 : CacheInv c2 ∧ ∀ v, c1.stopPx = some v →
          ∃ w, c2.stopPx = some w ∧ w ≤ v := by
        rcases trailPhase_cases oracle bars c1 with hcc | ⟨oid, px, ns, hid, hpx, hlt, hcc⟩
        · rw [htp] at hcc
          simp only at hcc
          rw [hcc]
          exact ⟨hc1.1, fun v hv => ⟨v, hv, le_refl v⟩⟩
        · rw [htp] at hcc
          simp only at hcc
          rw [hcc]
          constructor
          · intro h
            cases h
          · intro v hv
            rw [hpx] at hv
            injection hv with hv
            refine ⟨ns, rfl, ?_⟩
            rw [← hv]
            have ht : (0 : ℚ) < TICK_SIZE := by norm_num [TICK_SIZE]
            linarith
      cases e2 with
      | some e => exact ⟨hc2.1, fun v hv => by
          rcases hc2.2 v (hc1.2 v hv) with ⟨w, hw, hle⟩
          exact ⟨w, hw, hle⟩⟩
      | none =>
        have hstop : ∀ px, (LegName.stop, some px) ∈ coreWant c2.stopPx tr.hardTargets →
            c2.stopPx = some px := fun px h => mem_coreWant_stop h
        have hpres : ((reconcileTranche oracle TrName.core_runner
            (coreWant c2.stopPx tr.hardTargets) tr.qty "BUY" mkt c2).2).stopPx = c2.stopPx := by
          rw [reconcileTranche_cache]
          exact submitPhase_stopPx oracle TrName.core_runner _ mkt tr.qty "BUY" _ c2 hstop
        constructor
        · rcases submitPhase_cache_cases oracle TrName.core_runner
              (openByPx (fetchHandled (oracle.fetchRecon TrName.core_runner))) mkt tr.qty "BUY"
              (coreWant c2.stopPx tr.hardTargets) c2 with hcc | ⟨oid, px, hmem, hcc⟩
          · show CacheInv (reconcileTranche oracle TrName.core_runner
              (coreWant c2.stopPx tr.hardTargets) tr.qty "BUY" mkt c2).2
            rw [reconcileTranche_cache, hcc]
            exact hc2.1
          · show CacheInv (reconcileTranche oracle TrName.core_runner
              (coreWant c2.stopPx tr.hardTargets) tr.qty "BUY" mkt c2).2
            rw [reconcileTranche_cache, hcc]
            intro h
            cases h
        · intro v hv
          rcases hc2.2 v (hc1.2 v hv) with ⟨w, hw, hle⟩
          refine ⟨w, ?_, hle⟩
          show ((reconcileTranche oracle TrName.core_runner
            (coreWant c2.stopPx tr.hardTargets) tr.qty "BUY" mkt c2).2).stopPx = some w
          rw [hpres]
          exact hw

theorem tgt_ne_stop (i : Nat) : (LegName.tgt i = LegName.stop) = False := by
  simp

theorem some_nat_ne_none (n : Nat) : ((some n : Option Nat) = none) = False := by
  simp

theorem some_rat_ne_none (q : ℚ) : ((some q : Option ℚ) = none) = False := by
  simp

theorem evaluateTranches_cache (inp : EngineInput) (c : CoreCache) (hInv : CacheInv c) :
    CacheInv (evaluateTranches inp c).2.1 ∧
    ∀ v, c.stopPx = some v →
      ∃ w, (evaluateTranches inp c).2.1.stopPx = some w ∧ w ≤ v := by
  unfold evaluateTranches
  split
  · exact ⟨hInv, fun v hv => ⟨v, hv, le_refl v⟩⟩
  · cases hp : inp.price with
    | none => exact ⟨hInv, fun v hv => ⟨v, hv, le_refl v⟩⟩
    | some mkt =>
      dsimp only
      have hs2 : (if inp.scalpActive = true then
          manageScalp inp.oracle inp.scalp inp.pos mkt c else ([], c)).2 = c := by
        split
        · exact manageScalp_cache inp.oracle inp.scalp inp.pos mkt c
        · rfl
      by_cases hcore : inp.coreActive = true
      · rw [if_pos hcore, hs2]
        exact manageCore_cache inp.oracle inp.core inp.pos mkt inp.bars c hInv
      · rw [if_neg hcore]
        dsimp only
        rw [hs2]
        exact ⟨hInv, fun v hv => ⟨v, hv, le_refl v⟩⟩

theorem runEvals_cons (inp : EngineInput) (rest : List EngineInput) (c : CoreCache) :
    runEvals (inp :: rest) c = runEvals rest (evaluateTranches inp c).2.1 := rfl

theorem runEvals_cache (inputs : List EngineInput) : ∀ (c : CoreCache), CacheInv c →
    CacheInv (runEvals inputs c) ∧
    ∀ v, c.stopPx = some v →
      ∃ w, (runEvals inputs c).stopPx = some w ∧ w ≤ v := by
  induction inputs with
  | nil => intro c h; exact ⟨h, fun v hv => ⟨v, hv, le_refl v⟩⟩
  | cons inp rest ih =>
    intro c h
    rw [runEvals_cons]
    have hstep := evaluateTranches_cache inp c h
    have hrest := ih _ hstep.1
    refine ⟨hrest.1, ?_⟩
    intro v hv
    rcases hstep.2 v hv with ⟨w1, hw1, hle1⟩
    rcases hrest.2 w1 hw1 with ⟨w2, hw2, hle2⟩
    exact ⟨w2, hw2, le_trans hle2 hle1⟩

/-! ### C2 -/

/-- C2: for any run of the engine from process start (stop cache empty)
through any sequence of tick evaluations, the tracked core trailing-stop
price is non-increasing once first set: whenever the cache holds `u`
after `i` evaluations and `w` after `j ≥ i` evaluations, `w ≤ u`. -/
theorem C2_core_stop_monotone (inputs : List EngineInput) (i j : ℕ) (hij : i ≤ j)
    (u w : ℚ) (hu : stopPxAt inputs i = some u) (hw : stopPxAt inputs j = some w) :
    w ≤ u := by
  unfold stopPxAt at hu hw
  rw [show j = i + (j - i) from (Nat.add_sub_cancel' hij).symm, List.take_add] at hw
  rw [show runEvals (inputs.take i ++ ((inputs.drop i).take (j - i))) initCache =
      runEvals ((inputs.drop i).take (j - i)) (runEvals (inputs.take i) initCache)
    from by unfold runEvals; rw [List.foldl_append]] at hw
  have hInvi : CacheInv (runEvals (inputs.take i) initCache) :=
    (runEvals_cache _ initCache (fun _ => rfl)).1
  rcases (runEvals_cache _ _ hInvi).2 u hu with ⟨w', hw', hle⟩
  rw [hw'] at hw
  injection hw with hw
  rw [← hw]
  exact hle

/-- C2 witness: a two-evaluation run that places the initial core stop
at 101000 and keeps it there. -/
theorem C2_core_stop_monotone_witness :
    stopPxAt [inpW2, inpW2] 1 = some 101000 ∧ (101000 : ℚ) ≤ 101000 := by
  have h1 : stopPxAt [inpW2, inpW2] 1 = some 101000 := by
    norm_num [stopPxAt, runEvals, evaluateTranches, manageCore, manageScalp,
      initialPhase, trailPhase, reconcileTranche, submitPhase, cancelPhase,
      coreWant, wantVals, openByPx, fetchHandled, HasKey, okOracle, inpW2,
      scalpEx, coreEx, roundToTick, pyRound, TICK_SIZE, initCache, legTypeFor,
      List.foldl, List.take, tgt_ne_stop, List.enum, List.enumFrom,
      some_nat_ne_none, some_rat_ne_none]
  have h2 : stopPxAt [inpW2, inpW2] 2 = some 101000 := by
    norm_num [stopPxAt, runEvals, evaluateTranches, manageCore, manageScalp,
      initialPhase, trailPhase, reconcileTranche, submitPhase, cancelPhase,
      coreWant, wantVals, openByPx, fetchHandled, HasKey, okOracle, inpW2,
      scalpEx, coreEx, roundToTick, pyRound, TICK_SIZE, initCache, legTypeFor,
      List.foldl, List.take, tgt_ne_stop, List.enum, List.enumFrom,
      some_nat_ne_none, some_rat_ne_none]
  exact ⟨h1, C2_core_stop_monotone [inpW2, inpW2] 1 2 (by norm_num) 101000 101000 h1 h2⟩

/-! ### Phase equations for the core tranche theorems -/

theorem trailPhase_modify_ok (oracle : BrokerOracle) (bars : List Bar)
    (oid : Nat) (px : ℚ) (hlen : 15 ≤ bars.length)
    (hlt : trailCandidate bars < px - TICK_SIZE)
    (hmod : oracle.modifyRes = Except.ok ()) :
    trailPhase oracle bars (CoreCache.mk (some oid) (some px)) =
      ([OrderAction.modify oid (trailCandidate bars)],
        CoreCache.mk (some oid) (some (trailCandidate bars)), none) := by
  simp [trailPhase, hlen, hlt, hmod]

theorem trailPhase_modify_err (oracle : BrokerOracle) (bars : List Bar)
    (oid : Nat) (px : ℚ) (e : String) (hlen : 15 ≤ bars.length)
    (hlt : trailCandidate bars < px - TICK_SIZE)
    (hmod : oracle.modifyRes = Except.error e) :
    trailPhase oracle bars (CoreCache.mk (some oid) (some px)) =
      ([OrderAction.modify oid (trailCandidate bars)],
        CoreCache.mk (some oid) (some px), some e) := by
  simp [trailPhase, hlen, hlt, hmod]

theorem trailPhase_no_tighten (oracle : BrokerOracle) (bars : List Bar)
    (oid : Nat) (px : ℚ) (hlen : 15 ≤ bars.length)
    (hnlt : ¬trailCandidate bars < px - TICK_SIZE) :
    trailPhase oracle bars (CoreCache.mk (some oid) (some px)) =
      ([], CoreCache.mk (some oid) (some px), none) := by
  simp [trailPhase, hlen, hnlt]

theorem trailPhase_short (oracle : BrokerOracle) (bars : List Bar)
    (hlen : ¬15 ≤ bars.length) (c : CoreCache) :
    trailPhase oracle bars c = ([], c, none) := by
  obtain ⟨sid, spx⟩ := c
  cases sid with
  | none => rfl
  | some oid =>
    cases spx with
    | none => rfl
    | some px => simp [trailPhase, hlen]

theorem trailPhase_err_none (oracle : BrokerOracle) (bars : List Bar)
    (c : CoreCache) (hmod : oracle.modifyRes = Except.ok ()) :
    (trailPhase oracle bars c).2.2 = none := by
  obtain ⟨sid, spx⟩ := c
  cases sid with
  | none => rfl
  | some oid =>
    cases spx with
    | none => rfl
    | some px =>
      unfold trailPhase
      dsimp only
      split
      · split
        · rw [hmod]
        · rfl
      · rfl

theorem initialPhase_present (oracle : BrokerOracle) (tr : CoreTr) (m : PxMap)
    (c : CoreCache) (hc : c.stopId = none)
    (hp : ∃ po ∈ m, po.2.reduceOnly = true ∧ po.2.price = roundToTick tr.initialStop) :
    initialPhase oracle tr m c = ([], c, none) := by
  simp [initialPhase, hc, hp]

theorem initialPhase_submit_ok (oracle : BrokerOracle) (tr : CoreTr) (m : PxMap)
    (c : CoreCache) (oid : Nat) (hc : c.stopId = none)
    (hnp : ¬∃ po ∈ m, po.2.reduceOnly = true ∧ po.2.price = roundToTick tr.initialStop)
    (hres : oracle.submitRes (roundToTick tr.initialStop) = Except.ok oid) :
    initialPhase oracle tr m c =
      ([OrderAction.submit "BUY" tr.qty "STOP" (roundToTick tr.initialStop) true (some oid)],
        CoreCache.mk (some oid) (some (roundToTick tr.initialStop)), none) := by
  simp [initialPhase, hc, hnp, hres]

theorem initialPhase_err_none (oracle : BrokerOracle) (tr : CoreTr) (m : PxMap)
    (c : CoreCache)
    (hsub : ∃ oid, oracle.submitRes (roundToTick tr.initialStop) = Except.ok oid) :
    (initialPhase oracle tr m c).2.2 = none := by
  rcases hsub with ⟨oid, hoid⟩
  simp only [initialPhase]
  split
  · split
    · rfl
    · rw [hoid]
  · rfl

theorem reconcileTranche_no_modify (oracle : BrokerOracle) (tn : TrName)
    (want : List (LegName × Option ℚ)) (qty : Int) (side : String) (mkt : ℚ)
    (c : CoreCache) (k : Nat) (p : ℚ) :
    OrderAction.modify k p ∉ (reconcileTranche oracle tn want qty side mkt c).1 := by
  intro h
  unfold reconcileTranche at h
  rcases List.mem_append.mp h with h | h
  · exact cancelPhase_no_modify want _ k p h
  · exact submitPhase_no_modify oracle tn _ mkt qty side want c k p h

theorem reconcileTranche_core_stopPx (oracle : BrokerOracle) (qty : Int)
    (mkt : ℚ) (c2 : CoreCache) (hts : List ℚ) :
    ((reconcileTranche oracle TrName.core_runner (coreWant c2.stopPx hts)
      qty "BUY" mkt c2).2).stopPx = c2.stopPx := by
  rw [reconcileTranche_cache]
  exact submitPhase_stopPx oracle TrName.core_runner _ mkt qty "BUY" _ c2
    (fun px h => mem_coreWant_stop h)

theorem wantVals_coreWant_none (hts : List ℚ) :
    wantVals (coreWant none hts) = hts.map roundToTick := by
  unfold wantVals coreWant
  rw [List.filterMap_cons]
  dsimp only
  rw [List.filterMap_map]
  rw [show ((fun p : LegName × Option ℚ => p.2) ∘
      (fun p : ℕ × ℚ => (LegName.tgt (p.1 + 1), some (roundToTick p.2)))) =
      (fun p : ℕ × ℚ => some (roundToTick p.2)) from rfl]
  rw [show (fun p : ℕ × ℚ => some (roundToTick p.2)) =
      some ∘ (fun p : ℕ × ℚ => roundToTick p.2) from rfl]
  rw [List.filterMap_eq_map (fun p : ℕ × ℚ => roundToTick p.2)]
  rw [show (fun p : ℕ × ℚ => roundToTick p.2) = roundToTick ∘ Prod.snd from rfl,
    ← List.map_map, List.enum_map_snd]

/-! ### C3 -/

/-- C3 (amended): in a core-tranche evaluation with at least 15 bars and
a tracked stop, against a snapshot containing the tracked stop order at
its current (post-trail) price, the candidate stop is
`trailCandidate bars` (= latest bar's high + 14-period ATR, rounded to
tick), and the tracked stop is replaced — always by an in-place modify
carrying the same order id, never by cancel-plus-resubmit — if and only
if the candidate is lower than the current stop price by strictly MORE
than one tick (`new_stop < px - TICK_SIZE`). -/
theorem C3_trail_tightening (oracle : BrokerOracle) (tr : CoreTr) (pos : Int)
    (mkt : ℚ) (bars : List Bar) (oid : Nat) (px : ℚ) (S : List Order) (o : Order)
    (hq : ¬|pos| < tr.qty)
    (hlen : 15 ≤ bars.length)
    (hmod : oracle.modifyRes = Except.ok ())
    (hfetch : oracle.fetchRecon TrName.core_runner = Except.ok S)
    (hids : (S.map Order.orderId).Nodup)
    (ho : o ∈ S) (hoid : o.orderId = oid) (horo : o.reduceOnly = true)
    (hopx : o.price =
      if trailCandidate bars < px - TICK_SIZE then trailCandidate bars else px) :
    (∀ k p, OrderAction.modify k p ∈
        (manageCore oracle tr pos mkt bars (CoreCache.mk (some oid) (some px))).1 ↔
      trailCandidate bars < px - TICK_SIZE ∧ k = oid ∧ p = trailCandidate bars) ∧
    (manageCore oracle tr pos mkt bars (CoreCache.mk (some oid) (some px))).2.1.stopPx =
      some (if trailCandidate bars < px - TICK_SIZE then trailCandidate bars else px) ∧
    OrderAction.cancel oid ∉
      (manageCore oracle tr pos mkt bars (CoreCache.mk (some oid) (some px))).1 ∧
    (∀ s q t ro r, OrderAction.submit s q t o.price ro r ∉
      (manageCore oracle tr pos mkt bars (CoreCache.mk (some oid) (some px))).1) ∧
    (manageCore oracle tr pos mkt bars (CoreCache.mk (some oid) (some px))).2.2 = none := by
  rw [manageCore_eq oracle tr pos mkt bars _ hq]
  rw [initialPhase_of_tracked oracle tr _ _ (by simp)]
  dsimp only
  by_cases hlt : trailCandidate bars < px - TICK_SIZE
  · rw [trailPhase_modify_ok oracle bars oid px hlen hlt hmod]
    rw [if_pos hlt] at hopx
    rw [if_pos hlt]
    dsimp only
    refine ⟨?_, ?_, ?_, ?_, rfl⟩
    · intro k p
      constructor
      · intro hmem
        rcases List.mem_cons.mp hmem with he | h
        · injection he with h1 h2
          exact ⟨hlt, h1, h2⟩
        · exact absurd h (reconcileTranche_no_modify oracle TrName.core_runner _
            tr.qty "BUY" mkt _ k p)
      · rintro ⟨_, rfl, rfl⟩
        exact List.mem_cons_self _ _
    · exact reconcileTranche_core_stopPx oracle tr.qty mkt
        (CoreCache.mk (some oid) (some (trailCandidate bars))) tr.hardTargets
    · intro hmem
      rcases List.mem_cons.mp hmem with he | h
      · exact OrderAction.noConfusion he
      · rw [reconcileTranche_acts oracle TrName.core_runner _ tr.qty "BUY" mkt _ S hfetch] at h
        rcases List.mem_append.mp h with h | h
        · simp at h
        · rcases List.mem_append.mp h with h | h
          · rw [mem_cancelPhase] at h
            rcases h with ⟨po, hpo, hkid, hro2, hnw⟩
            rcases mem_openByPx hpo with ⟨hpo2, hpo1⟩
            have he : po.2 = o :=
              List.inj_on_of_nodup_map hids hpo2 ho (hkid.trans hoid.symm)
            apply hnw
            rw [hpo1, he, hopx]
            exact mem_wantVals.mpr ⟨LegName.stop, List.mem_cons_self _ _⟩
          · exact submitPhase_no_cancel oracle TrName.core_runner _ mkt tr.qty "BUY" _ _ _ h
    · intro s q t ro r hmem
      rcases List.mem_cons.mp hmem with he | h
      · exact OrderAction.noConfusion he
      · rw [reconcileTranche_acts oracle TrName.core_runner _ tr.qty "BUY" mkt _ S hfetch] at h
        rcases List.mem_append.mp h with h | h
        · simp at h
        · rcases List.mem_append.mp h with h | h
          · rcases cancelPhase_shape h with ⟨k', he⟩
            exact OrderAction.noConfusion he
          · rcases submitPhase_shape oracle TrName.core_runner _ mkt tr.qty "BUY" _ _ _ h
              with ⟨px', r', he, _, hk⟩
            injection he with he1 he2 he3 he4 he5 he6
            exact hk (hasKey_openByPx.mpr ⟨o, ho, he4⟩)
  · rw [trailPhase_no_tighten oracle bars oid px hlen hlt]
    rw [if_neg hlt] at hopx
    rw [if_neg hlt]
    dsimp only
    refine ⟨?_, ?_, ?_, ?_, rfl⟩
    · intro k p
      constructor
      · intro hmem
        exact absurd hmem (reconcileTranche_no_modify oracle TrName.core_runner _
          tr.qty "BUY" mkt _ k p)
      · rintro ⟨h, _, _⟩
        exact absurd h hlt
    · exact reconcileTranche_core_stopPx oracle tr.qty mkt
        (CoreCache.mk (some oid) (some px)) tr.hardTargets
    · intro h
      simp only [List.nil_append] at h
      rw [reconcileTranche_acts oracle TrName.core_runner _ tr.qty "BUY" mkt _ S hfetch] at h
      rcases List.mem_append.mp h with h | h
      · rw [mem_cancelPhase] at h
        rcases h with ⟨po, hpo, hkid, hro2, hnw⟩
        rcases mem_openByPx hpo with ⟨hpo2, hpo1⟩
        have he : po.2 = o :=
          List.inj_on_of_nodup_map hids hpo2 ho (hkid.trans hoid.symm)
        apply hnw
        rw [hpo1, he, hopx]
        exact mem_wantVals.mpr ⟨LegName.stop, List.mem_cons_self _ _⟩
      · exact submitPhase_no_cancel oracle TrName.core_runner _ mkt tr.qty "BUY" _ _ _ h
    · intro s q t ro r h
      simp only [List.nil_append] at h
      rw [reconcileTranche_acts oracle TrName.core_runner _ tr.qty "BUY" mkt _ S hfetch] at h
      rcases List.mem_append.mp h with h | h
      · rcases cancelPhase_shape h with ⟨k', he⟩
        exact OrderAction.noConfusion he
      · rcases submitPhase_shape oracle TrName.core_runner _ mkt tr.qty "BUY" _ _ _ h
          with ⟨px', r', he, _, hk⟩
        injection he with he1 he2 he3 he4 he5 he6
        exact hk (hasKey_openByPx.mpr ⟨o, ho, he4⟩)

/-- C3 counterexample: with fifteen flat bars the candidate stop is
100000, exactly one tick below the tracked stop 100000.5 — "lower by at
least one tick" in the claim's words — yet the evaluation issues no
order call at all and leaves the tracked stop unchanged, because the
code requires `new_stop < stop_px - TICK_SIZE` (strictly more than one
tick). -/
theorem C3_trail_tightening_counterexample :
    trailCandidate barsFlat = 100000 ∧
    (100000.5 : ℚ) - trailCandidate barsFlat = TICK_SIZE ∧
    (manageCore oracleC3 coreC3 2 100200 barsFlat
      (CoreCache.mk (some 5) (some (100000.5 : ℚ)))).1 = [] ∧
    (manageCore oracleC3 coreC3 2 100200 barsFlat
      (CoreCache.mk (some 5) (some (100000.5 : ℚ)))).2.1 =
      CoreCache.mk (some 5) (some (100000.5 : ℚ)) := by
  have hcand : trailCandidate barsFlat = 100000 := by
    norm_num [trailCandidate, barsFlat, atr14, trList, trueRange, pyMean,
      List.replicate, List.getLast?, roundToTick, pyRound, TICK_SIZE]
  refine ⟨hcand, by rw [hcand]; norm_num [TICK_SIZE], ?_, ?_⟩
  all_goals
    norm_num [manageCore, oracleC3, coreC3, rawC3, initialPhase, trailPhase,
      trailCandidate, barsFlat, atr14, trList, trueRange, pyMean,
      List.replicate, List.getLast?, roundToTick, pyRound, TICK_SIZE,
      reconcileTranche, submitPhase, cancelPhase, coreWant, wantVals,
      openByPx, insertByPrice, fetchHandled, HasKey, legTypeFor, List.foldl,
      tgt_ne_stop, some_nat_ne_none, some_rat_ne_none, List.enum,
      List.enumFrom]

/-- C3 witness: with fifteen flat bars and tracked stop 100010, the
candidate 100000 is more than one tick lower, and the evaluation
modifies the tracked order in place. -/
theorem C3_trail_tightening_witness :
    OrderAction.modify 5 (trailCandidate barsFlat) ∈
      (manageCore oracleW3 coreEx 2 104000 barsFlat
        (CoreCache.mk (some 5) (some 100010))).1 := by
  have hcand : trailCandidate barsFlat = 100000 := by
    norm_num [trailCandidate, barsFlat, atr14, trList, trueRange, pyMean,
      List.replicate, List.getLast?, roundToTick, pyRound, TICK_SIZE]
  refine ((C3_trail_tightening oracleW3 coreEx 2 104000 barsFlat 5 100010 rawW3
    (Order.mk 5 100000 true) (by decide) (by simp [barsFlat]) rfl rfl (by decide)
    (by exact List.mem_cons_self _ _) rfl rfl ?_).1 5 (trailCandidate barsFlat)).mpr
    ⟨?_, rfl, rfl⟩
  · rw [hcand]
    norm_num [TICK_SIZE]
  · rw [hcand]
    norm_num [TICK_SIZE]

/-! ### C8 -/

theorem manageCore_err_none (oracle : BrokerOracle) (tr : CoreTr) (pos : Int)
    (mkt : ℚ) (bars : List Bar) (c : CoreCache)
    (hsub : ∃ oid, oracle.submitRes (roundToTick tr.initialStop) = Except.ok oid)
    (hmod : oracle.modifyRes = Except.ok ()) :
    (manageCore oracle tr pos mkt bars c).2.2 = none := by
  by_cases hq : |pos| < tr.qty
  · rw [show manageCore oracle tr pos mkt bars c = ([], c, none) from by
      unfold manageCore; rw [if_pos hq]]
  · rw [manageCore_eq oracle tr pos mkt bars c hq]
    rcases hip : initialPhase oracle tr (openByPx (fetchHandled oracle.fetchCore)) c
      with ⟨a1, c1, e1⟩
    have he1 : e1 = none := by
      have h := initialPhase_err_none oracle tr (openByPx (fetchHandled oracle.fetchCore))
        c hsub
      rw [hip] at h
      exact h
    subst he1
    dsimp only
    rcases htp : trailPhase oracle bars c1 with ⟨a2, c2, e2⟩
    have he2 : e2 = none := by
      have h := trailPhase_err_none oracle bars c1 hmod
      rw [htp] at h
      exact h
    subst he2
    rfl

/-- C8 (amended): an error raised while fetching open orders, or during
the reconcile phase's cancels and submits, is caught inside the
evaluation, so whenever the two call sites of `_manage_core` that are
NOT wrapped in `try` — the initial stop submission and the trailing-stop
modify — succeed, no error escapes a tranche-evaluation step, whatever
the other broker calls return. (An error at either unwrapped site does
escape into the market-data loop: see the counterexample.) -/
theorem C8_error_containment (inp : EngineInput) (c : CoreCache)
    (hsub : ∃ oid, inp.oracle.submitRes (roundToTick inp.core.initialStop) = Except.ok oid)
    (hmod : inp.oracle.modifyRes = Except.ok ()) :
    (evaluateTranches inp c).2.2 = none := by
  unfold evaluateTranches
  split
  · rfl
  · cases hp : inp.price with
    | none => rfl
    | some mkt =>
      dsimp only
      by_cases hcore : inp.coreActive = true
      · rw [if_pos hcore]
        exact manageCore_err_none inp.oracle inp.core inp.pos mkt inp.bars _ hsub hmod
      · rw [if_neg hcore]

/-- C8 counterexample: when the trailing-stop `modify_order` call
raises, the exception is not caught inside the evaluation — the
tranche-evaluation step itself ends with the error, which therefore
escapes into its caller (the market-data loop). -/
theorem C8_error_containment_counterexample :
    (evaluateTranches inpC8 (CoreCache.mk (some 5) (some 100010))).2.2 =
      some "modify failed" := by
  norm_num [evaluateTranches, inpC8, oracleC8, manageCore, manageScalp,
    initialPhase, trailPhase, trailCandidate, atr14, trList, trueRange, pyMean,
    List.replicate, barsFlat, coreEx, scalpEx, roundToTick, pyRound, TICK_SIZE,
    reconcileTranche, submitPhase, cancelPhase, coreWant, wantVals, openByPx,
    fetchHandled, HasKey, legTypeFor, List.foldl, tgt_ne_stop,
    some_nat_ne_none, some_rat_ne_none, List.enum, List.enumFrom, List.getLast?]

/-- C8 witness: with both unwrapped call sites succeeding, an evaluation
step ends without error. -/
theorem C8_error_containment_witness :
    (evaluateTranches inpW2 initCache).2.2 = none :=
  C8_error_containment inpW2 initCache ⟨1, rfl⟩ rfl

/-! ### C9 -/

/-- C9: when no core stop is tracked but a reduce-only order already
rests at the rounded initial stop price, a core-tranche evaluation does
not adopt that order: it submits no initial stop, leaves the stop cache
empty (so the desired "stop" leg is null), cancels the resting order as
rogue, and issues no modify; a later evaluation that sees no order at
the stop price re-places the stop and re-fills the cache. -/
theorem C9_no_adoption (oracle oracle2 : BrokerOracle) (tr : CoreTr) (pos : Int)
    (mkt : ℚ) (bars : List Bar) (S S2 : List Order) (o : Order) (noid : Nat)
    (hq : ¬|pos| < tr.qty)
    (hf1 : oracle.fetchCore = Except.ok S)
    (hf2 : oracle.fetchRecon TrName.core_runner = Except.ok S)
    (ho : o ∈ S) (horo : o.reduceOnly = true)
    (hpx : o.price = roundToTick tr.initialStop)
    (hpxs : (S.map Order.price).Nodup)
    (htgt : roundToTick tr.initialStop ∉ tr.hardTargets.map roundToTick)
    (hblen : bars.length < 15)
    (hf1' : oracle2.fetchCore = Except.ok S2)
    (hno : ∀ o' ∈ S2, ¬(o'.reduceOnly = true ∧ o'.price = roundToTick tr.initialStop))
    (hsub2 : oracle2.submitRes (roundToTick tr.initialStop) = Except.ok noid) :
    (manageCore oracle tr pos mkt bars (CoreCache.mk none none)).2.1 =
      CoreCache.mk none none ∧
    OrderAction.cancel o.orderId ∈
      (manageCore oracle tr pos mkt bars (CoreCache.mk none none)).1 ∧
    (∀ s q t ro r, OrderAction.submit s q t (roundToTick tr.initialStop) ro r ∉
      (manageCore oracle tr pos mkt bars (CoreCache.mk none none)).1) ∧
    (∀ k p, OrderAction.modify k p ∉
      (manageCore oracle tr pos mkt bars (CoreCache.mk none none)).1) ∧
    (manageCore oracle tr pos mkt bars (CoreCache.mk none none)).2.2 = none ∧
    OrderAction.submit "BUY" tr.qty "STOP" (roundToTick tr.initialStop) true (some noid) ∈
      (manageCore oracle2 tr pos mkt bars (CoreCache.mk none none)).1 ∧
    (manageCore oracle2 tr pos mkt bars (CoreCache.mk none none)).2.1.stopPx =
      some (roundToTick tr.initialStop) := by
  have hm1 : openByPx (fetchHandled oracle.fetchCore) = openByPx S := by
    rw [hf1]
    rfl
  have hm2 : openByPx (fetchHandled oracle2.fetchCore) = openByPx S2 := by
    rw [hf1']
    rfl
  have hnp2 : ¬∃ po ∈ openByPx S2, po.2.reduceOnly = true ∧
      po.2.price = roundToTick tr.initialStop := by
    rintro ⟨po, hpo, hro', hpx'⟩
    exact hno po.2 (mem_openByPx hpo).1 ⟨hro', hpx'⟩
  rw [manageCore_eq oracle tr pos mkt bars _ hq, hm1]
  rw [initialPhase_present oracle tr (openByPx S) _ rfl
    ⟨(o.price, o), self_mem_openByPx ho hpxs, horo, hpx⟩]
  dsimp only
  rw [show trailPhase oracle bars (CoreCache.mk none none) =
    ([], CoreCache.mk none none, none) from rfl]
  dsimp only
  rw [manageCore_eq oracle2 tr pos mkt bars _ hq, hm2]
  rw [initialPhase_submit_ok oracle2 tr (openByPx S2) _ noid rfl hnp2 hsub2]
  dsimp only
  rw [trailPhase_short oracle2 bars (by omega)
    (CoreCache.mk (some noid) (some (roundToTick tr.initialStop)))]
  dsimp only
  have hacts := reconcileTranche_acts oracle TrName.core_runner
    (coreWant none tr.hardTargets) tr.qty "BUY" mkt (CoreCache.mk none none) S hf2
  have hwv : wantVals (coreWant none tr.hardTargets) = tr.hardTargets.map roundToTick :=
    wantVals_coreWant_none tr.hardTargets
  refine ⟨?_, ?_, ?_, ?_, rfl, ?_, ?_⟩
  · rcases submitPhase_cache_cases oracle TrName.core_runner (openByPx S) mkt tr.qty "BUY"
        (coreWant none tr.hardTargets) (CoreCache.mk none none) with hcc | ⟨oid', px', hmem, hcc⟩
    · rw [show (reconcileTranche oracle TrName.core_runner (coreWant none tr.hardTargets)
        tr.qty "BUY" mkt (CoreCache.mk none none)).2 =
        (submitPhase oracle TrName.core_runner (openByPx S) mkt tr.qty "BUY"
          (coreWant none tr.hardTargets) (CoreCache.mk none none)).2 from by rw [hacts]]
      exact hcc
    · exact absurd (mem_coreWant_stop hmem) (by simp)
  · rw [hacts]
    apply List.mem_append_right
    apply List.mem_append_left
    rw [mem_cancelPhase]
    refine ⟨(o.price, o), self_mem_openByPx ho hpxs, rfl, horo, ?_⟩
    rw [hwv, hpx]
    exact htgt
  · intro s q t ro r h
    rw [hacts] at h
    rcases List.mem_append.mp h with h | h
    · simp at h
    · rcases List.mem_append.mp h with h | h
      · rcases cancelPhase_shape h with ⟨k', he⟩
        exact OrderAction.noConfusion he
      · rcases submitPhase_shape oracle TrName.core_runner _ mkt tr.qty "BUY" _ _ _ h
          with ⟨px', r', he, _, hk⟩
        injection he with he1 he2 he3 he4 he5 he6
        exact hk (hasKey_openByPx.mpr ⟨o, ho, hpx.trans he4⟩)
  · intro k p h
    rw [hacts] at h
    rcases List.mem_append.mp h with h | h
    · simp at h
    · rcases List.mem_append.mp h with h | h
      · exact cancelPhase_no_modify _ _ k p h
      · exact submitPhase_no_modify oracle TrName.core_runner _ mkt tr.qty "BUY" _ _ k p h
  · exact List.mem_cons_self _ _
  · exact reconcileTranche_core_stopPx oracle2 tr.qty mkt
      (CoreCache.mk (some noid) (some (roundToTick tr.initialStop))) tr.hardTargets

/-- C9 witness: with a resting reduce-only order at the rounded initial
stop 101000 and an empty cache, an evaluation leaves the cache empty and
cancels the resting order. -/
theorem C9_no_adoption_witness :
    (manageCore oracleC9 coreEx 2 104000 [] (CoreCache.mk none none)).2.1 =
      CoreCache.mk none none ∧
    OrderAction.cancel 3 ∈
      (manageCore oracleC9 coreEx 2 104000 [] (CoreCache.mk none none)).1 := by
  have hpx : (Order.mk 3 101000 true).price = roundToTick coreEx.initialStop := by
    norm_num [coreEx, roundToTick, pyRound, TICK_SIZE]
  have hpxs : (rawC9.map Order.price).Nodup := by simp [rawC9]
  have htgt : roundToTick coreEx.initialStop ∉ coreEx.hardTargets.map roundToTick := by
    norm_num [coreEx, roundToTick, pyRound, TICK_SIZE]
  have hno : ∀ o' ∈ ([] : List Order),
      ¬(o'.reduceOnly = true ∧ o'.price = roundToTick coreEx.initialStop) := by
    intro o' h
    simp at h
  have h := C9_no_adoption oracleC9 okOracle coreEx 2 104000 [] rawC9 []
    (Order.mk 3 101000 true) 1 (by decide) rfl rfl (List.mem_cons_self _ _) rfl
    hpx hpxs htgt (by norm_num) rfl hno rfl
  exact ⟨h.1, h.2.1⟩
